import Mathlib

/-!
# libbitcoin: script assembler (`tests/scritp.cpp`) and spend reference (`src/chain/point.cpp`)

A shallow embedding of the two source files.

* `std::string` is a list of characters, `data_chunk` a list of bytes.
* The function-local `static data_chunk hex_raw` of `parse_token` is passed in and
  handed back explicitly, so that what one call leaves behind is visible to the next.
* A C++ call either returns, stops on a failed `BITCOIN_ASSERT`, or lets a
  `boost::bad_lexical_cast` escape; `outcome` keeps the three apart.
-/

namespace libbitcoin

/-! ## Basic types -/

/-- The type `uint8_t`. -/
abbrev byte := Fin 256

/-- The conversion `static_cast<uint8_t>(n)`. -/
def to_byte (n : Nat) : byte := ⟨n % 256, Nat.mod_lt n (by decide)⟩

/-- The type `data_chunk`, that is `std::vector<uint8_t>`. -/
abbrev data_chunk := List byte

/-- The type `std::string`; the character with code `k` stands for the C++ `char` of value `k`. -/
abbrev Str := List Char

/-- How a call ends: it returns a value, a `BITCOIN_ASSERT` fails, or a
`boost::bad_lexical_cast` is thrown and nothing in the file catches it. -/
inductive outcome (α : Type) where
  | returned (a : α)
  | assertion_failed
  | bad_lexical_cast
  deriving DecidableEq, Repr

/-- Sequencing of calls: the first call that does not return ends the whole computation. -/
def outcome.bind {α β : Type} (x : outcome α) (f : α → outcome β) : outcome β :=
  match x with
  | .returned a => f a
  | .assertion_failed => .assertion_failed
  | .bad_lexical_cast => .bad_lexical_cast

instance : Monad outcome where
  pure := outcome.returned
  bind := outcome.bind

/-- Modelled from the spec: the macro BITCOIN_ASSERT is defined outside src/; the spec
treats an assertion as a checked condition ("this is asserted as a postcondition",
"the encoder explicitly rejects it"), so a false condition stops the call. -/
def BITCOIN_ASSERT (condition : Bool) : outcome Unit :=
  if condition then .returned () else .assertion_failed

/-! ## Script data model -/

/-- Modelled from the spec: the enumeration `opcode` is declared outside src/. The
constructors are the enumerators that `scritp.cpp` names; `other b` stands for every
remaining enumerator, identified by its byte value. -/
inductive opcode where
  | zero
  | special
  | pushdata1
  | pushdata2
  | pushdata4
  | op_1 | op_2 | op_3 | op_4 | op_5 | op_6 | op_7 | op_8
  | op_9 | op_10 | op_11 | op_12 | op_13 | op_14 | op_15 | op_16
  | bad_operation
  | other (b : Nat)
  deriving DecidableEq, Repr

/-- The struct `operation`: an opcode and its payload. -/
structure operation where
  code : opcode
  data : data_chunk
  deriving DecidableEq, Repr

/-- The class `script`: an ordered sequence of operations. -/
structure script where
  operations : List operation
  deriving DecidableEq, Repr

/-- Modelled from the spec: `script::push_operation` is defined outside src/; a script is
"append-only during assembly". -/
def script.push_operation (s : script) (op : operation) : script :=
  { operations := s.operations ++ [op] }

/-- Modelled from the spec: `script::join` is defined outside src/; "one script's
operations can be appended to another's". -/
def script.join (s other : script) : script :=
  { operations := s.operations ++ other.operations }

/-- The library functions that `scritp.cpp` calls and whose definitions are outside src/.
They are parameters of the assembler. -/
structure script_library where
  /-- The lookup `string_to_opcode`; `opcode.bad_operation` when the name is unknown. -/
  string_to_opcode : Str → opcode
  /-- The decoder `parse_script` of a serialized script. -/
  parse_script : data_chunk → script
  /-- The hex decoder `bytes_from_pretty`. -/
  bytes_from_pretty : Str → data_chunk

/-! ## Token classification (`scritp.cpp`, lines 7-48) -/

/-- The predicate `boost::is_digit()` in the classic locale. -/
def is_digit (c : Char) : Bool := decide ('0' ≤ c) && decide (c ≤ '9')

/-- The function `std::isxdigit` in the classic locale. -/
def isxdigit (c : Char) : Bool :=
  is_digit c || (decide ('a' ≤ c) && decide (c ≤ 'f')) || (decide ('A' ≤ c) && decide (c ≤ 'F'))

/-- The function `boost::starts_with`. -/
def starts_with (input test : Str) : Bool := test.isPrefixOf input

/-- The function `boost::ends_with`. -/
def ends_with (input test : Str) : Bool := test.isSuffixOf input

/-- The function `is_number` (lines 7-16). -/
def is_number (token : Str) : Bool :=
  if token.all is_digit then true
  else if !(starts_with token "-".toList) then false
  else
    let numeric_part := token.drop 1
    numeric_part.all is_digit

/-- The function `is_hex_data` (lines 18-24). -/
def is_hex_data (token : Str) : Bool :=
  if !(starts_with token "0x".toList) then false
  else
    let hex_part := token.drop 2
    hex_part.all isxdigit

/-- The single quote character. -/
def quote : Char := Char.ofNat 39

/-- The function `is_quoted_string` (lines 26-31). -/
def is_quoted_string (token : Str) : Bool :=
  if token.length < 2 then false
  else starts_with token [quote] && ends_with token [quote]

/-- The function `token_to_opcode` (lines 33-38); `to_lower` in the classic locale. -/
def token_to_opcode (lib : script_library) (token : Str) : opcode :=
  let lower_token := token.map Char.toLower
  lib.string_to_opcode lower_token

/-- The function `is_opcode` (lines 40-43). -/
def is_opcode (lib : script_library) (token : Str) : Bool :=
  token_to_opcode lib token != opcode.bad_operation

/-- The function `is_opx` (lines 45-48). -/
def is_opx (value : Int) : Bool :=
  value == -1 || (decide (1 ≤ value) && decide (value ≤ 16))

/-! ## Emitting operations (`scritp.cpp`, lines 50-100) -/

/-- The function `push_literal` (lines 50-79): two assertions, then a `switch` over the
cases 1 to 16 that has no `default`. -/
def push_literal (result_script : script) (value : Int) : outcome script := do
  BITCOIN_ASSERT (is_opx value)
  BITCOIN_ASSERT (value != -1)
  if value = 1 then pure (result_script.push_operation ⟨.op_1, []⟩)
  else if value = 2 then pure (result_script.push_operation ⟨.op_2, []⟩)
  else if value = 3 then pure (result_script.push_operation ⟨.op_3, []⟩)
  else if value = 4 then pure (result_script.push_operation ⟨.op_4, []⟩)
  else if value = 5 then pure (result_script.push_operation ⟨.op_5, []⟩)
  else if value = 6 then pure (result_script.push_operation ⟨.op_6, []⟩)
  else if value = 7 then pure (result_script.push_operation ⟨.op_7, []⟩)
  else if value = 8 then pure (result_script.push_operation ⟨.op_8, []⟩)
  else if value = 9 then pure (result_script.push_operation ⟨.op_9, []⟩)
  else if value = 10 then pure (result_script.push_operation ⟨.op_10, []⟩)
  else if value = 11 then pure (result_script.push_operation ⟨.op_11, []⟩)
  else if value = 12 then pure (result_script.push_operation ⟨.op_12, []⟩)
  else if value = 13 then pure (result_script.push_operation ⟨.op_13, []⟩)
  else if value = 14 then pure (result_script.push_operation ⟨.op_14, []⟩)
  else if value = 15 then pure (result_script.push_operation ⟨.op_15, []⟩)
  else if value = 16 then pure (result_script.push_operation ⟨.op_16, []⟩)
  else pure result_script

/-- The function `push_data` (lines 81-100). -/
def push_data (result_script : script) (data : data_chunk) : outcome script := do
  let code ←
    if data.isEmpty then pure opcode.zero
    else if data.length < 76 then pure opcode.special
    else if data.length ≤ 0xff then pure opcode.pushdata1
    else if data.length ≤ 0xffff then pure opcode.pushdata2
    else do
      BITCOIN_ASSERT (decide (data.length ≤ 0xffffffff))
      pure opcode.pushdata4
  pure (result_script.push_operation { code := code, data := data })

/-! ## Numeric literals -/

/-- The value of a string of decimal digits. -/
def decimal_value (digits : Str) : Nat :=
  digits.foldl (fun acc c => 10 * acc + (c.toNat - '0'.toNat)) 0

/-- The conversion `boost::lexical_cast<int64_t>` (Boost): an optional sign, then at least
one decimal digit and nothing else, and a value that fits `int64_t`; anything else throws
`boost::bad_lexical_cast`. -/
def lexical_cast_int64 (token : Str) : outcome Int :=
  let negative := starts_with token "-".toList
  let digits := if negative || starts_with token "+".toList then token.drop 1 else token
  if digits.isEmpty || !(digits.all is_digit) then outcome.bad_lexical_cast
  else
    let magnitude := decimal_value digits
    if negative then
      if magnitude ≤ 9223372036854775808 then outcome.returned (-(magnitude : Int))
      else outcome.bad_lexical_cast
    else
      if magnitude ≤ 9223372036854775807 then outcome.returned (magnitude : Int)
      else outcome.bad_lexical_cast

/-- Modelled from the spec: the bytes that `big_number` gives for the magnitude `n`, "the
shortest sequence of bytes, little-endian magnitude", with the sign "in the top bit of the
final byte"; `fuel` bounds the number of bytes. -/
def signed_bytes (negative : Bool) : Nat → Nat → data_chunk
  | 0, _ => []
  | fuel + 1, n =>
    if n = 0 then []
    else if n < 128 then [to_byte (if negative then n + 128 else n)]
    else if n < 256 then [to_byte n, to_byte (if negative then 128 else 0)]
    else to_byte n :: signed_bytes negative fuel (n / 256)

/-- Modelled from the spec: the class `big_number` (`set_int64` followed by `data()`) is
defined outside src/. The spec: "encode it as a minimal-length signed byte sequence (the
shortest sequence of bytes, little-endian magnitude with a sign convention, such that
reinterpreting the bytes reproduces the value)", with "an explicit sign bit in the top bit
of the final byte". -/
def bignum_data (value : Int) : data_chunk :=
  signed_bytes (decide (value < 0)) value.natAbs value.natAbs

/-! ## The assembler (`scritp.cpp`, lines 102-163) -/

/-- The state that `parse_token` reads and writes: its function-local
`static data_chunk hex_raw` and the script passed by reference. -/
structure parse_state where
  hex_raw : data_chunk
  result_script : script
  deriving DecidableEq, Repr

/-- The tail of `parse_token` (lines 144-149): a non-empty `hex_raw` is decoded, its
operations are joined to the script, and the buffer is emptied; then `true` is returned. -/
def parse_token_flush (lib : script_library) (hex_raw : data_chunk) (result_script : script) :
    Bool × parse_state :=
  if !hex_raw.isEmpty then
    (true, { hex_raw := [], result_script := result_script.join (lib.parse_script hex_raw) })
  else
    (true, { hex_raw := hex_raw, result_script := result_script })

/-- The function `parse_token` (lines 102-150). -/
def parse_token (lib : script_library) (st : parse_state) (token : Str) :
    outcome (Bool × parse_state) :=
  if token = "ENDING".toList then
    pure (parse_token_flush lib st.hex_raw st.result_script)
  else if is_number token then do
    let value ← lexical_cast_int64 token
    let result_script ←
      if is_opx value then push_literal st.result_script value
      else push_data st.result_script (bignum_data value)
    pure (parse_token_flush lib st.hex_raw result_script)
  else if is_hex_data token then
    let hex_part := token.drop 2
    let raw_data := lib.bytes_from_pretty hex_part
    pure (true, { hex_raw := st.hex_raw ++ raw_data, result_script := st.result_script })
  else if is_quoted_string token then do
    let inner_value : data_chunk := ((token.drop 1).dropLast).map (fun c => to_byte c.toNat)
    let result_script ← push_data st.result_script inner_value
    pure (parse_token_flush lib st.hex_raw result_script)
  else if is_opcode lib token then
    let tokenized_opcode := token_to_opcode lib token
    pure (parse_token_flush lib st.hex_raw (st.result_script.push_operation ⟨tokenized_opcode, []⟩))
  else
    pure (false, st)

/-- The call `boost::split(tokens, format, boost::is_any_of(" "))`: the input is cut at
every space, adjacent separators are not merged. -/
def split (format : Str) : List Str := format.splitOn ' '

/-- The `for` loop of `parse` (lines 158-160): the tokens in order, stopping with `false`
at the first token that `parse_token` refuses. -/
def parse_tokens (lib : script_library) : parse_state → List Str → outcome (Bool × parse_state)
  | st, [] => pure (true, st)
  | st, token :: rest => do
    let (accepted, st1) ← parse_token lib st token
    if !accepted then pure (false, st1)
    else parse_tokens lib st1 rest

/-- The function `parse` (lines 152-163); the value returned by the final
`parse_token(result_script, "ENDING")` is ignored. -/
def parse (lib : script_library) (st : parse_state) (format : Str) :
    outcome (Bool × parse_state) :=
  if format.isEmpty then pure (true, st)
  else do
    let tokens := split format
    let (accepted, st1) ← parse_tokens lib st tokens
    if !accepted then pure (false, st1)
    else do
      let (_, st2) ← parse_token lib st1 "ENDING".toList
      pure (true, st2)

/-- The bytes that a run of hex-fragment tokens adds to the accumulation buffer. -/
def fragment_bytes (lib : script_library) (tokens : List Str) : data_chunk :=
  (tokens.map (fun t => lib.bytes_from_pretty (t.drop 2))).flatten

/-! ## Concrete library functions for evaluating the assembler on examples -/

/-- The value of one hexadecimal digit. -/
def hex_digit_value (c : Char) : Nat :=
  if is_digit c then c.toNat - '0'.toNat
  else if decide ('a' ≤ c) && decide (c ≤ 'f') then c.toNat - 'a'.toNat + 10
  else c.toNat - 'A'.toNat + 10

/-- Modelled from the spec: `bytes_from_pretty` is defined outside src/; "decode the hex
digits to raw bytes", two digits per byte. -/
def bytes_from_pretty_model : Str → data_chunk
  | hi :: lo :: rest => to_byte (16 * hex_digit_value hi + hex_digit_value lo) ::
      bytes_from_pretty_model rest
  | _ => []

/-- The opcode with byte value `b`. -/
def opcode_of_byte (b : Nat) : opcode :=
  if b = 0 then .zero
  else if b ≤ 75 then .special
  else if b = 76 then .pushdata1
  else if b = 77 then .pushdata2
  else if b = 78 then .pushdata4
  else if b = 81 then .op_1 else if b = 82 then .op_2 else if b = 83 then .op_3
  else if b = 84 then .op_4 else if b = 85 then .op_5 else if b = 86 then .op_6
  else if b = 87 then .op_7 else if b = 88 then .op_8 else if b = 89 then .op_9
  else if b = 90 then .op_10 else if b = 91 then .op_11 else if b = 92 then .op_12
  else if b = 93 then .op_13 else if b = 94 then .op_14 else if b = 95 then .op_15
  else if b = 96 then .op_16
  else .other b

/-- The little-endian value of a byte sequence. -/
def from_little_endian : data_chunk → Nat
  | [] => 0
  | b :: rest => b.val + 256 * from_little_endian rest

/-- The operations of a serialized script; `fuel` bounds the number of operations. -/
def parse_operations : Nat → data_chunk → List operation
  | 0, _ => []
  | _ + 1, [] => []
  | fuel + 1, b :: rest =>
    let code := opcode_of_byte b.val
    let length_bytes :=
      if code = .pushdata1 then 1 else if code = .pushdata2 then 2
      else if code = .pushdata4 then 4 else 0
    let size := if code = .special then b.val else from_little_endian (rest.take length_bytes)
    let body := rest.drop length_bytes
    ⟨code, body.take size⟩ :: parse_operations fuel (body.drop size)

/-- Modelled from the spec: `parse_script` is defined outside src/; "each operation is 1
opcode byte, optionally followed by a length prefix (0, 1, 2, or 4 bytes per §4.2 table)
and then the payload bytes". -/
def parse_script_model (raw_script : data_chunk) : script :=
  { operations := parse_operations raw_script.length raw_script }

/-- Modelled from the spec: `string_to_opcode` is defined outside src/; a token is an
opcode mnemonic when it "matches a known opcode name". Four names stand for the table. -/
def string_to_opcode_model (name : Str) : opcode :=
  if name = "nop".toList then .other 97
  else if name = "dup".toList then .other 118
  else if name = "equal".toList then .other 135
  else if name = "checksig".toList then .other 172
  else .bad_operation

/-- A concrete library, for evaluating the assembler on examples. -/
def model_library : script_library :=
  { string_to_opcode := string_to_opcode_model
    parse_script := parse_script_model
    bytes_from_pretty := bytes_from_pretty_model }

/-! ## Spend reference (`chain/point.cpp`) -/

/-- The type `uint32_t`. -/
abbrev uint32 := Fin 4294967296

/-- The conversion `static_cast<uint32_t>(n)`. -/
def to_uint32 (n : Nat) : uint32 := ⟨n % 4294967296, Nat.mod_lt n (by decide)⟩

/-- Modelled from the spec: the constant `hash_size` is defined outside src/; the hash is a
"32-byte array". -/
def hash_size : Nat := 32

/-- The type `hash_digest`, that is `std::array<uint8_t, hash_size>`. -/
abbrev hash_digest := { bytes : List byte // bytes.length = hash_size }

/-- Modelled from the spec: the constant `null_hash` is defined outside src/; it is the
"all-zero hash". -/
def null_hash : hash_digest := ⟨List.replicate hash_size 0, List.length_replicate _ _⟩

/-- Modelled from the spec: the constant `max_uint32` is defined outside src/; "the maximum
32-bit value". -/
def max_uint32 : uint32 := 4294967295

/-- The class `point`: the members `hash` and `index`. -/
structure point where
  hash : hash_digest
  index : uint32
  deriving DecidableEq

/-- The four bytes that `write_4_bytes_little_endian` writes: byte `i` is
`static_cast<uint8_t>(value >> (8 * i))`. -/
def little_endian_4 (value : uint32) : data_chunk :=
  [to_byte value.val, to_byte (value.val / 256), to_byte (value.val / 65536),
   to_byte (value.val / 16777216)]

/-- Modelled from the spec: the byte source `reader` (`read_hash`,
`read_4_bytes_little_endian`, `operator bool`) is defined outside src/. The spec: decode
"reads exactly 32 bytes as hash, then 4 bytes as index (little-endian)", and the "source
is exhausted" when it holds too few bytes. The state is the bytes not yet read and the
failure flag of the stream. -/
structure reader where
  remaining : data_chunk
  failed : Bool
  deriving DecidableEq

/-- The byte source over a `data_chunk` (`data_source`, `istream_reader`). -/
def data_source (data : data_chunk) : reader := { remaining := data, failed := false }

/-- The conversion `static_cast<bool>(source)`: no read has failed. -/
def reader.to_bool (source : reader) : Bool := !source.failed

/-- Reading `n` bytes into a zeroed buffer: a failed source gives nothing; a source that
holds fewer than `n` bytes gives the bytes it has and fails. -/
def reader.read_bytes (source : reader) (n : Nat) : data_chunk × reader :=
  let got := if source.failed then [] else source.remaining.take n
  (got ++ List.replicate (n - got.length) 0,
   { remaining := if source.failed then source.remaining else source.remaining.drop n
     failed := source.failed || decide (got.length < n) })

/-- The call `source.read_hash()`. -/
def reader.read_hash (source : reader) : hash_digest × reader :=
  (⟨(source.read_bytes hash_size).1, by
      simp only [reader.read_bytes]
      split
      · simp
      · simp only [List.length_append, List.length_take, List.length_replicate]
        omega⟩,
   (source.read_bytes hash_size).2)

/-- The call `source.read_4_bytes_little_endian()`. -/
def reader.read_4_bytes_little_endian (source : reader) : uint32 × reader :=
  (to_uint32 (from_little_endian (source.read_bytes 4).1), (source.read_bytes 4).2)

/-- The function `point::is_valid` (lines 57-60). -/
def point.is_valid (self : point) : Bool :=
  (self.index != 0) || (self.hash != null_hash)

/-- The function `point::reset` (lines 62-66). -/
def point.reset (_self : point) : point :=
  { hash := ⟨List.replicate hash_size 0, List.length_replicate _ _⟩, index := 0 }

/-- The function `point::from_data(reader&)` (lines 80-90); the result is the returned
flag and the record afterwards. -/
def point.from_data_reader (self : point) (source : reader) : Bool × point :=
  let self := self.reset
  let (hash, source) := source.read_hash
  let self := { self with hash := hash }
  let (index, source) := source.read_4_bytes_little_endian
  let self := { self with index := index }
  let result := source.to_bool
  let self := if !result then self.reset else self
  (result, self)

/-- The function `point::from_data(const data_chunk&)` (lines 68-78, through the stream
overload). -/
def point.from_data (self : point) (data : data_chunk) : Bool × point :=
  self.from_data_reader (data_source data)

/-- The function `point::satoshi_fixed_size` (lines 119-122). -/
def point.satoshi_fixed_size : Nat := hash_size + 4

/-- The function `point::serialized_size` (lines 114-117). -/
def point.serialized_size (_self : point) : Nat := point.satoshi_fixed_size

/-- The function `point::to_data(writer&)` (lines 108-112); the sink is the byte sequence
written so far. -/
def point.to_data_writer (self : point) (sink : data_chunk) : data_chunk :=
  let sink := sink ++ self.hash.val
  sink ++ little_endian_4 self.index

/-- The function `point::to_data()` (lines 92-100). -/
def point.to_data (self : point) : outcome data_chunk := do
  let data := self.to_data_writer []
  BITCOIN_ASSERT (data.length == self.serialized_size)
  pure data

/-- The function `point::is_null` (lines 131-134). -/
def point.is_null (self : point) : Bool :=
  (self.index == max_uint32) && (self.hash == null_hash)

/-- The function `remainder` (lines 136-146); `divisor - 1` is computed in `uint64_t`. -/
def remainder (value : hash_digest) (divisor : Nat) : outcome Nat := do
  BITCOIN_ASSERT (divisor % 2 == 0)
  let hash_value := from_little_endian (value.val.take 8)
  pure (hash_value &&& ((divisor + 18446744073709551616 - 1) % 18446744073709551616))

/-- The serializer over `copy.begin()` writing four bytes: the first four bytes of the
array are replaced. -/
def hash_digest.write_4_bytes_little_endian (copy : hash_digest) (value : uint32) :
    hash_digest :=
  ⟨little_endian_4 value ++ copy.val.drop 4, by
    have h := copy.property
    simp only [hash_size] at h
    simp [little_endian_4, hash_size, h]⟩

/-- The function `point::checksum` (lines 148-163). -/
def point.checksum (self : point) : outcome Nat :=
  let divisor : Nat := 1 <<< 63
  let copy := self.hash
  let copy := copy.write_4_bytes_little_endian self.index
  remainder copy divisor

/-- The operator `==` on points (lines 165-168). -/
def point.eq (left right : point) : Bool :=
  left.hash == right.hash && left.index == right.index

/-- The value that the spec describes for the checksum: on a copy of the hash the bytes
0 to 3 are overwritten with the index, least significant byte first; the bytes 0 to 7 of
the copy are read as a little-endian integer, which is reduced modulo 2^63. -/
def checksum_spec (hash : hash_digest) (index : uint32) : Nat :=
  let copy := (((hash.val.set 0 (to_byte index.val)).set 1 (to_byte (index.val / 256))).set 2
    (to_byte (index.val / 65536))).set 3 (to_byte (index.val / 16777216))
  ((List.range 8).map (fun i => (copy.getD i 0).val * 256 ^ i)).sum % 2 ^ 63

/-- The opcode that the spec calls "push small integer N", for N from 1 to 16. -/
def small_integer_opcode (n : Int) : opcode :=
  match n with
  | 1 => .op_1 | 2 => .op_2 | 3 => .op_3 | 4 => .op_4
  | 5 => .op_5 | 6 => .op_6 | 7 => .op_7 | 8 => .op_8
  | 9 => .op_9 | 10 => .op_10 | 11 => .op_11 | 12 => .op_12
  | 13 => .op_13 | 14 => .op_14 | 15 => .op_15 | 16 => .op_16
  | _ => .bad_operation

/-- The magnitude that a signed byte sequence stands for: the bytes are read least
significant first, and the top bit of the last byte is left out. -/
def signed_magnitude : data_chunk → Nat
  | [] => 0
  | [b] => b.val % 128
  | b :: c :: rest => b.val + 256 * signed_magnitude (c :: rest)

/-- The sign that a signed byte sequence stands for: the top bit of its last byte. -/
def signed_negative : data_chunk → Bool
  | [] => false
  | [b] => decide (128 ≤ b.val)
  | _ :: c :: rest => signed_negative (c :: rest)

/-- The integer that a signed byte sequence stands for ("reinterpreting the bytes"). -/
def decode_signed (bytes : data_chunk) : Int :=
  if signed_negative bytes then -(signed_magnitude bytes : Int) else (signed_magnitude bytes : Int)

/-- Two calls of `parse` in one process, each with a script of its own as in `main`
(lines 174-186): the second call finds the static `hex_raw` as the first call left it.
The result is that of the second call. -/
def parse_after (lib : script_library) (a b : Str) : outcome (Bool × parse_state) :=
  (parse lib { hex_raw := [], result_script := { operations := [] } } a).bind (fun r =>
    parse lib { hex_raw := r.2.hex_raw, result_script := { operations := [] } } b)

/-- The `switch` statement of `push_literal` (lines 55-78) on its own, that is, what the
function does with a value once its two assertions are behind it: the cases 1 to 16 push
an operation, and every other value, for which there is no case and no `default`, leaves
the script as it is. -/
def push_literal_switch (result_script : script) (value : Int) : outcome script :=
  if value = 1 then pure (result_script.push_operation ⟨.op_1, []⟩)
  else if value = 2 then pure (result_script.push_operation ⟨.op_2, []⟩)
  else if value = 3 then pure (result_script.push_operation ⟨.op_3, []⟩)
  else if value = 4 then pure (result_script.push_operation ⟨.op_4, []⟩)
  else if value = 5 then pure (result_script.push_operation ⟨.op_5, []⟩)
  else if value = 6 then pure (result_script.push_operation ⟨.op_6, []⟩)
  else if value = 7 then pure (result_script.push_operation ⟨.op_7, []⟩)
  else if value = 8 then pure (result_script.push_operation ⟨.op_8, []⟩)
  else if value = 9 then pure (result_script.push_operation ⟨.op_9, []⟩)
  else if value = 10 then pure (result_script.push_operation ⟨.op_10, []⟩)
  else if value = 11 then pure (result_script.push_operation ⟨.op_11, []⟩)
  else if value = 12 then pure (result_script.push_operation ⟨.op_12, []⟩)
  else if value = 13 then pure (result_script.push_operation ⟨.op_13, []⟩)
  else if value = 14 then pure (result_script.push_operation ⟨.op_14, []⟩)
  else if value = 15 then pure (result_script.push_operation ⟨.op_15, []⟩)
  else if value = 16 then pure (result_script.push_operation ⟨.op_16, []⟩)
  else pure result_script

/-! ## Theorems -/

/-- C1. For a payload of at most 4294967295 bytes `push_data` returns the script with
exactly one operation appended after the operations already there; the payload of that
operation is the data unchanged and its opcode follows the length brackets
0, 1-75, 76-255, 256-65535, 65536-4294967295. -/
theorem push_data_contract (result_script : script) (data : data_chunk)
    (hsize : data.length ≤ 4294967295) :
    ∃ code : opcode,
      push_data result_script data
        = outcome.returned { operations := result_script.operations ++ [⟨code, data⟩] } ∧
      (data.length = 0 → code = opcode.zero) ∧
      (1 ≤ data.length ∧ data.length ≤ 75 → code = opcode.special) ∧
      (76 ≤ data.length ∧ data.length ≤ 255 → code = opcode.pushdata1) ∧
      (256 ≤ data.length ∧ data.length ≤ 65535 → code = opcode.pushdata2) ∧
      (65536 ≤ data.length ∧ data.length ≤ 4294967295 → code = opcode.pushdata4) := by
  have hb : ∀ (x : outcome opcode) (f : opcode → outcome script), (x >>= f) = x.bind f :=
    fun _ _ => rfl
  unfold push_data
  rcases Nat.eq_zero_or_pos data.length with h0 | hpos
  · have hnil : data = [] := List.length_eq_zero.mp h0
    subst hnil
    exact ⟨opcode.zero, rfl, by simp⟩
  · have hne : data.isEmpty = false := by
      cases data with
      | nil => simp at hpos
      | cons a t => rfl
    by_cases h1 : data.length < 76
    · refine ⟨opcode.special, ?_, ?_⟩
      · simp [hne, h1, hb, outcome.bind, pure, script.push_operation]
      · refine ⟨?_, ?_, ?_, ?_, ?_⟩ <;> intro h <;> first | rfl | omega
    · by_cases h2 : data.length ≤ 0xff
      · refine ⟨opcode.pushdata1, ?_, ?_⟩
        · simp [hne, h1, h2, hb, outcome.bind, pure, script.push_operation]
        · refine ⟨?_, ?_, ?_, ?_, ?_⟩ <;> intro h <;> first | rfl | omega
      · by_cases h3 : data.length ≤ 0xffff
        · refine ⟨opcode.pushdata2, ?_, ?_⟩
          · simp [hne, h1, h2, h3, hb, outcome.bind, pure, script.push_operation]
          · refine ⟨?_, ?_, ?_, ?_, ?_⟩ <;> intro h <;> first | rfl | omega
        · refine ⟨opcode.pushdata4, ?_, ?_⟩
          · have h4 : data.length ≤ 0xffffffff := hsize
            simp [hne, h1, h2, h3, h4, hb, outcome.bind, pure, script.push_operation,
              BITCOIN_ASSERT, bind]
          · refine ⟨?_, ?_, ?_, ?_, ?_⟩ <;> intro h <;> first | rfl | omega


theorem push_data_contract_witness :
    ([0x61, 0x62] : data_chunk).length ≤ 4294967295 ∧
    ∃ code : opcode,
      push_data { operations := [⟨opcode.op_1, []⟩] } [0x61, 0x62]
        = outcome.returned { operations := [⟨opcode.op_1, []⟩] ++ [⟨code, [0x61, 0x62]⟩] } ∧
      (([0x61, 0x62] : data_chunk).length = 0 → code = opcode.zero) ∧
      (1 ≤ ([0x61, 0x62] : data_chunk).length ∧ ([0x61, 0x62] : data_chunk).length ≤ 75 →
        code = opcode.special) ∧
      (76 ≤ ([0x61, 0x62] : data_chunk).length ∧ ([0x61, 0x62] : data_chunk).length ≤ 255 →
        code = opcode.pushdata1) ∧
      (256 ≤ ([0x61, 0x62] : data_chunk).length ∧ ([0x61, 0x62] : data_chunk).length ≤ 65535 →
        code = opcode.pushdata2) ∧
      (65536 ≤ ([0x61, 0x62] : data_chunk).length ∧
          ([0x61, 0x62] : data_chunk).length ≤ 4294967295 →
        code = opcode.pushdata4) :=
  ⟨by decide, push_data_contract { operations := [⟨opcode.op_1, []⟩] } [0x61, 0x62] (by decide)⟩

/-- Beyond 4294967295 bytes the assertion of `push_data` on the size fails. -/
theorem push_data_oversized (result_script : script) (data : data_chunk)
    (hsize : 4294967295 < data.length) :
    push_data result_script data = outcome.assertion_failed := by
  have hne : data.isEmpty = false := by
    cases data with
    | nil => simp at hsize
    | cons a t => rfl
  have h1 : ¬ data.length < 76 := by omega
  have h2 : ¬ data.length ≤ 0xff := by omega
  have h3 : ¬ data.length ≤ 0xffff := by omega
  have h4 : ¬ data.length ≤ 0xffffffff := by omega
  unfold push_data
  simp only [hne, h1, h2, h3, h4, Bool.false_eq_true, if_false, BITCOIN_ASSERT, decide_False]
  rfl

/-! ### Hex-fragment tokens -/

theorem hex_token_shape (t : Str) (h : is_hex_data t = true) :
    ∃ r : Str, t = '0' :: 'x' :: r ∧ r.all isxdigit = true := by
  unfold is_hex_data starts_with at h
  have e : "0x".toList = ['0', 'x'] := rfl
  rw [e] at h
  match t, h with
  | [], h => simp [List.isPrefixOf] at h
  | [a], h => simp [List.isPrefixOf] at h
  | a :: b :: r, h =>
    simp [List.isPrefixOf] at h
    obtain ⟨⟨ha, hb⟩, hr⟩ := h
    subst ha; subst hb
    exact ⟨r, rfl, by simpa using hr⟩

theorem isxdigit_ne_space (c : Char) (h : isxdigit c = true) : c ≠ ' ' := by
  intro hc
  subst hc
  revert h
  decide

theorem hex_token_no_space (t : Str) (h : is_hex_data t = true) : ' ' ∉ t := by
  obtain ⟨r, rfl, hr⟩ := hex_token_shape t h
  intro hmem
  simp only [List.mem_cons] at hmem
  rcases hmem with h1 | h1 | h1
  · exact absurd h1 (by decide)
  · exact absurd h1 (by decide)
  · exact isxdigit_ne_space ' ' (List.all_eq_true.mp hr _ h1) rfl

theorem hex_token_not_ending (t : Str) (h : is_hex_data t = true) : t ≠ "ENDING".toList := by
  obtain ⟨r, rfl, _⟩ := hex_token_shape t h
  have e : "ENDING".toList = ['E', 'N', 'D', 'I', 'N', 'G'] := rfl
  rw [e]
  intro hc
  injection hc with h1 _
  exact absurd h1 (by decide)

theorem hex_token_not_number (t : Str) (h : is_hex_data t = true) : is_number t = false := by
  obtain ⟨r, rfl, _⟩ := hex_token_shape t h
  have e : "-".toList = ['-'] := rfl
  have hx : is_digit 'x' = false := by decide
  have h0 : ('-' == '0') = false := by decide
  simp [is_number, starts_with, e, List.isPrefixOf, hx, h0]

/-- A hex-fragment token only extends the accumulation buffer. -/
theorem parse_token_hex (lib : script_library) (st : parse_state) (t : Str)
    (h : is_hex_data t = true) :
    parse_token lib st t = outcome.returned
      (true, { hex_raw := st.hex_raw ++ lib.bytes_from_pretty (t.drop 2),
               result_script := st.result_script }) := by
  unfold parse_token
  rw [if_neg (hex_token_not_ending t h), hex_token_not_number t h, h]
  rfl

theorem parse_tokens_hex (lib : script_library) (tokens : List Str)
    (h : ∀ t ∈ tokens, is_hex_data t = true) (st : parse_state) :
    parse_tokens lib st tokens = outcome.returned
      (true, { hex_raw := st.hex_raw ++ fragment_bytes lib tokens,
               result_script := st.result_script }) := by
  induction tokens generalizing st with
  | nil => simp [parse_tokens, fragment_bytes, pure]
  | cons t rest ih =>
    have ht := h t (List.mem_cons_self _ _)
    have hrest : ∀ u ∈ rest, is_hex_data u = true := fun u hu => h u (List.mem_cons_of_mem _ hu)
    unfold parse_tokens
    rw [parse_token_hex lib st t ht]
    show parse_tokens lib _ rest = _
    rw [ih hrest]
    simp [fragment_bytes, List.append_assoc]

theorem split_intercalate (tokens : List Str) (hne : tokens ≠ [])
    (h : ∀ t ∈ tokens, ' ' ∉ t) : split (" ".toList.intercalate tokens) = tokens := by
  have e : " ".toList = [' '] := rfl
  rw [e]
  exact List.splitOn_intercalate tokens ' ' h hne

theorem parse_token_ending (lib : script_library) (st : parse_state) :
    parse_token lib st "ENDING".toList
      = outcome.returned (parse_token_flush lib st.hex_raw st.result_script) := by
  unfold parse_token
  rw [if_pos rfl]
  rfl

theorem parse_eq_of_tokens (lib : script_library) (st st1 : parse_state) (format : Str)
    (hne : format ≠ [])
    (h : parse_tokens lib st (split format) = outcome.returned (true, st1)) :
    parse lib st format
      = outcome.returned (true, (parse_token_flush lib st1.hex_raw st1.result_script).2) := by
  unfold parse
  have hf : format.isEmpty = false := by
    cases format with
    | nil => exact absurd rfl hne
    | cons a t => rfl
  rw [hf]
  simp only [Bool.false_eq_true, if_false]
  show (parse_tokens lib st (split format)).bind _ = _
  rw [h]
  simp only [outcome.bind, Bool.not_true, Bool.false_eq_true, if_false]
  show (parse_token lib st1 "ENDING".toList).bind _ = _
  rw [parse_token_ending]
  rfl

/-- C2. An input of hex-fragment tokens separated by single spaces, assembled from an empty
accumulation buffer into an empty script, succeeds; the script is the decoding, as one
binary script, of the fragments' bytes concatenated in token order, and the buffer is
empty afterwards. The decoder is the library's `parse_script`, which decodes the empty
buffer to the empty script. -/
theorem parse_hex_only (lib : script_library) (tokens : List Str)
    (hhex : ∀ t ∈ tokens, is_hex_data t = true)
    (hempty : lib.parse_script [] = { operations := [] }) :
    parse lib { hex_raw := [], result_script := { operations := [] } }
        (" ".toList.intercalate tokens)
      = outcome.returned
          (true, { hex_raw := [],
                   result_script := lib.parse_script (fragment_bytes lib tokens) }) := by
  cases tokens with
  | nil =>
    have e : " ".toList.intercalate ([] : List Str) = [] := rfl
    rw [e]
    simp [parse, fragment_bytes, hempty, pure]
  | cons t rest =>
    have hsp : ∀ u ∈ t :: rest, ' ' ∉ u := fun u hu => hex_token_no_space u (hhex u hu)
    have hsplit := split_intercalate (t :: rest) (List.cons_ne_nil _ _) hsp
    have hne : " ".toList.intercalate (t :: rest) ≠ [] := by
      intro hc
      rw [hc] at hsplit
      have : split [] = [[]] := rfl
      rw [this] at hsplit
      injection hsplit with h1 _
      obtain ⟨r, hr, _⟩ := hex_token_shape t (hhex t (List.mem_cons_self _ _))
      rw [hr] at h1
      exact absurd h1 (by simp)
    have hloop := parse_tokens_hex lib (t :: rest) hhex
      { hex_raw := [], result_script := { operations := [] } }
    rw [← hsplit] at hloop
    rw [parse_eq_of_tokens lib _ _ _ hne hloop]
    rw [hsplit]
    simp only [List.nil_append, parse_token_flush]
    by_cases hb : fragment_bytes lib (t :: rest) = []
    · rw [hb, hempty]
      rfl
    · have hbe : (fragment_bytes lib (t :: rest)).isEmpty = false := by
        cases hfb : fragment_bytes lib (t :: rest) with
        | nil => exact absurd hfb hb
        | cons a l => rfl
      simp [hbe, script.join]

theorem parse_hex_only_witness :
    (∀ t ∈ ["0x00".toList, "0x01".toList], is_hex_data t = true) ∧
    model_library.parse_script [] = { operations := [] } ∧
    parse model_library { hex_raw := [], result_script := { operations := [] } }
        "0x00 0x01".toList
      = outcome.returned
          (true, { hex_raw := [], result_script := model_library.parse_script [0x00, 0x01] }) :=
  ⟨by decide, by decide,
   parse_hex_only model_library ["0x00".toList, "0x01".toList] (by decide) (by decide)⟩

/-- C3. On the input `0x00 5` the token `5` does trigger the flush, but its operation is
appended before the flush: the script is `op_5` followed by the operation decoded from the
accumulated byte `00`, the reverse of the order of the tokens. -/
theorem parse_flush_follows_token :
    parse_script_model (bytes_from_pretty_model "00".toList)
      = { operations := [⟨opcode.zero, []⟩] } ∧
    parse model_library { hex_raw := [], result_script := { operations := [] } }
        "0x00 5".toList
      = outcome.returned
          (true, { hex_raw := [],
                   result_script :=
                     { operations := [⟨opcode.op_5, []⟩, ⟨opcode.zero, []⟩] } }) := by
  decide

/-! ### Single tokens -/

theorem parse_single (lib : script_library) (st : parse_state) (token : Str)
    (hne : token ≠ []) (hsp : ' ' ∉ token) :
    parse lib st token =
      (parse_token lib st token).bind (fun r =>
        if !r.1 then outcome.returned (false, r.2)
        else (parse_token lib r.2 "ENDING".toList).bind (fun r2 =>
          outcome.returned (true, r2.2))) := by
  have hsplit : split token = [token] := by
    have h := split_intercalate [token] (List.cons_ne_nil _ _)
      (fun t ht => by rw [List.mem_singleton.mp ht]; exact hsp)
    simpa [List.intercalate] using h
  have hf : token.isEmpty = false := by
    cases token with
    | nil => exact absurd rfl hne
    | cons a t => rfl
  unfold parse
  rw [hf, hsplit]
  simp only [Bool.false_eq_true, if_false]
  unfold parse_tokens
  show ((parse_token lib st token).bind _).bind _ = _
  cases hr : parse_token lib st token with
  | returned r =>
    obtain ⟨accepted, st1⟩ := r
    cases accepted with
    | false => rfl
    | true => rfl
  | assertion_failed => rfl
  | bad_lexical_cast => rfl

theorem is_number_chars (token : Str) (h : is_number token = true) :
    ∀ c ∈ token, is_digit c = true ∨ c = '-' := by
  unfold is_number at h
  by_cases hall : token.all is_digit = true
  · intro c hc
    exact Or.inl (List.all_eq_true.mp hall c hc)
  · rw [if_neg hall] at h
    cases token with
    | nil => simp at hall
    | cons a t =>
      have e : "-".toList = ['-'] := rfl
      simp [starts_with, e, List.isPrefixOf] at h
      obtain ⟨ha, ht⟩ := h
      intro c hc
      rcases List.mem_cons.mp hc with h1 | h1
      · exact Or.inr (h1.trans ha.symm)
      · exact Or.inl (ht c h1)

theorem is_number_no_space (token : Str) (h : is_number token = true) : ' ' ∉ token := by
  intro hmem
  rcases is_number_chars token h ' ' hmem with h1 | h1
  · exact absurd h1 (by decide)
  · exact absurd h1 (by decide)

theorem is_number_not_ending (token : Str) (h : is_number token = true) :
    token ≠ "ENDING".toList := by
  intro hc
  rw [hc] at h
  exact absurd h (by decide)

theorem lexical_cast_ne_nil (token : Str) (v : Int)
    (h : lexical_cast_int64 token = outcome.returned v) : token ≠ [] := by
  intro hc
  have e : lexical_cast_int64 [] = outcome.bad_lexical_cast := rfl
  rw [hc, e] at h
  cases h

/-- A numeric token whose value is `value`: what `parse_token` does with it. -/
theorem parse_token_number (lib : script_library) (st : parse_state) (token : Str)
    (value : Int) (hnum : is_number token = true)
    (hval : lexical_cast_int64 token = outcome.returned value) :
    parse_token lib st token =
      (if is_opx value then push_literal st.result_script value
        else push_data st.result_script (bignum_data value)).bind (fun result_script =>
          outcome.returned (parse_token_flush lib st.hex_raw result_script)) := by
  unfold parse_token
  rw [if_neg (is_number_not_ending token hnum), hnum]
  simp only [if_true]
  show (lexical_cast_int64 token).bind _ = _
  rw [hval]
  by_cases hopx : is_opx value = true
  · simp only [outcome.bind, hopx, if_true]
    rfl
  · simp only [outcome.bind, hopx, if_false]
    rfl

theorem push_literal_small (result_script : script) (n : Int) (h1 : 1 ≤ n) (h16 : n ≤ 16) :
    push_literal result_script n = outcome.returned
      { operations := result_script.operations ++ [⟨small_integer_opcode n, []⟩] } := by
  interval_cases n <;> rfl

/-- C8. A numeric token whose value is in 1..16, assembled alone from an empty buffer into
an empty script, succeeds with exactly one operation: the opcode `op_n` with an empty
payload. -/
theorem parse_small_literal (lib : script_library) (token : Str) (n : Int)
    (hnum : is_number token = true)
    (hval : lexical_cast_int64 token = outcome.returned n)
    (h1 : 1 ≤ n) (h16 : n ≤ 16) :
    parse lib { hex_raw := [], result_script := { operations := [] } } token
      = outcome.returned
          (true, { hex_raw := [],
                   result_script := { operations := [⟨small_integer_opcode n, []⟩] } }) := by
  rw [parse_single lib _ token (lexical_cast_ne_nil token n hval)
    (is_number_no_space token hnum), parse_token_number lib _ token n hnum hval]
  have hopx : is_opx n = true := by
    simp only [is_opx, Bool.or_eq_true, beq_iff_eq, Bool.and_eq_true, decide_eq_true_eq]
    exact Or.inr ⟨h1, h16⟩
  rw [hopx]
  simp only [if_true]
  rw [push_literal_small _ n h1 h16]
  simp only [outcome.bind, parse_token_flush, List.isEmpty_nil, Bool.not_true,
    Bool.false_eq_true, if_false, Bool.not_true, List.nil_append]
  rw [parse_token_ending]
  rfl

theorem parse_small_literal_witness :
    is_number "5".toList = true ∧
    lexical_cast_int64 "5".toList = outcome.returned 5 ∧
    parse model_library { hex_raw := [], result_script := { operations := [] } } "5".toList
      = outcome.returned
          (true, { hex_raw := [],
                   result_script := { operations := [⟨opcode.op_5, []⟩] } }) :=
  ⟨by decide, by decide,
   parse_small_literal model_library "5".toList 5 (by decide) (by decide) (by decide)
     (by decide)⟩

/-- Every numeric token whose value is -1 runs into the assertion `value != -1` of
`push_literal`, whatever the buffer and the script hold: `parse` is stopped there and
returns neither true nor false. -/
theorem parse_minus_one_rejected (lib : script_library) (st : parse_state) (token : Str)
    (hnum : is_number token = true)
    (hval : lexical_cast_int64 token = outcome.returned (-1)) :
    parse lib st token = outcome.assertion_failed := by
  rw [parse_single lib _ token (lexical_cast_ne_nil token (-1) hval)
    (is_number_no_space token hnum), parse_token_number lib _ token (-1) hnum hval]
  rfl

theorem parse_minus_one_rejected_witness :
    is_number "-1".toList = true ∧
    lexical_cast_int64 "-1".toList = outcome.returned (-1) ∧
    parse model_library { hex_raw := [], result_script := { operations := [] } } "-1".toList
      = outcome.assertion_failed :=
  ⟨by decide, by decide,
   parse_minus_one_rejected model_library _ "-1".toList (by decide) (by decide)⟩

/-- The function `push_literal` is its two assertions followed by its `switch`. -/
theorem push_literal_eq_switch (result_script : script) (value : Int) :
    push_literal result_script value =
      (BITCOIN_ASSERT (is_opx value)).bind (fun _ =>
        (BITCOIN_ASSERT (value != -1)).bind (fun _ =>
          push_literal_switch result_script value)) := rfl

/-- C10. The token `-1` is not reported as a failure. `is_number` and `is_opx` accept it,
so `parse_token` hands it to `push_literal`, and there the assertion `value != -1` is all
that stands in its way: `parse` is stopped on it and returns neither false nor true. The
`switch` behind the assertion has no case for -1 and leaves the script without the token. -/
theorem parse_minus_one_not_reported :
    is_number "-1".toList = true ∧
    lexical_cast_int64 "-1".toList = outcome.returned (-1) ∧
    is_opx (-1) = true ∧
    parse model_library { hex_raw := [], result_script := { operations := [] } } "-1".toList
      = outcome.assertion_failed ∧
    push_literal_switch { operations := [] } (-1)
      = outcome.returned { operations := [] } := by
  decide

/-! ### A run of hex fragments followed by a small literal -/

theorem parse_tokens_cons (lib : script_library) (st : parse_state) (t : Str)
    (rest : List Str) :
    parse_tokens lib st (t :: rest) =
      (parse_token lib st t).bind (fun r =>
        if !r.1 then outcome.returned (false, r.2) else parse_tokens lib r.2 rest) := by
  rw [parse_tokens]
  rfl

theorem parse_tokens_hex_append (lib : script_library) (hs rest : List Str)
    (h : ∀ t ∈ hs, is_hex_data t = true) (st : parse_state) :
    parse_tokens lib st (hs ++ rest) =
      parse_tokens lib
        { hex_raw := st.hex_raw ++ fragment_bytes lib hs, result_script := st.result_script }
        rest := by
  induction hs generalizing st with
  | nil => simp [fragment_bytes]
  | cons t hs ih =>
    have ht := h t (List.mem_cons_self _ _)
    have hrest : ∀ u ∈ hs, is_hex_data u = true := fun u hu => h u (List.mem_cons_of_mem _ hu)
    rw [List.cons_append, parse_tokens_cons, parse_token_hex lib st t ht]
    show parse_tokens lib _ (hs ++ rest) = _
    rw [ih hrest]
    simp [fragment_bytes, List.append_assoc]

/-- The order in which `parse` leaves the operations, for every library: after hex
fragments that hold at least one byte, a literal `n` in 1..16 puts `op_n` first and the
operations decoded from the fragments behind it. -/
theorem parse_hex_then_small_literal (lib : script_library) (hs : List Str) (token : Str)
    (n : Int) (hhex : ∀ t ∈ hs, is_hex_data t = true) (hbytes : fragment_bytes lib hs ≠ [])
    (hnum : is_number token = true) (hval : lexical_cast_int64 token = outcome.returned n)
    (h1 : 1 ≤ n) (h16 : n ≤ 16) :
    parse lib { hex_raw := [], result_script := { operations := [] } }
        (" ".toList.intercalate (hs ++ [token]))
      = outcome.returned
          (true, { hex_raw := [],
                   result_script :=
                     { operations := ⟨small_integer_opcode n, []⟩ ::
                         (lib.parse_script (fragment_bytes lib hs)).operations } }) := by
  have htok : token ≠ [] := lexical_cast_ne_nil token n hval
  have hsp : ∀ u ∈ hs ++ [token], ' ' ∉ u := by
    intro u hu
    rcases List.mem_append.mp hu with h | h
    · exact hex_token_no_space u (hhex u h)
    · rw [List.mem_singleton.mp h]
      exact is_number_no_space token hnum
  have hsplit := split_intercalate (hs ++ [token]) (by simp) hsp
  have hne : " ".toList.intercalate (hs ++ [token]) ≠ [] := by
    intro hc
    rw [hc] at hsplit
    have e : split [] = [[]] := rfl
    rw [e] at hsplit
    cases hs with
    | nil =>
      simp only [List.nil_append, List.cons.injEq, and_true] at hsplit
      exact htok hsplit.symm
    | cons a l =>
      simp only [List.cons_append, List.cons.injEq] at hsplit
      have := hsplit.2
      simp at this
  have hbe : (fragment_bytes lib hs).isEmpty = false := by
    cases hfb : fragment_bytes lib hs with
    | nil => exact absurd hfb hbytes
    | cons a l => rfl
  have hopx : is_opx n = true := by
    simp only [is_opx, Bool.or_eq_true, beq_iff_eq, Bool.and_eq_true, decide_eq_true_eq]
    exact Or.inr ⟨h1, h16⟩
  have hloop : parse_tokens lib { hex_raw := [], result_script := { operations := [] } }
      (split (" ".toList.intercalate (hs ++ [token])))
      = outcome.returned
          (true, { hex_raw := [],
                   result_script :=
                     { operations := ⟨small_integer_opcode n, []⟩ ::
                         (lib.parse_script (fragment_bytes lib hs)).operations } }) := by
    rw [hsplit, parse_tokens_hex_append lib hs [token] hhex, parse_tokens_cons,
      parse_token_number lib _ token n hnum hval, hopx]
    simp only [if_true, List.nil_append]
    rw [push_literal_small _ n h1 h16]
    simp only [outcome.bind, parse_token_flush, hbe, Bool.not_false, if_true, List.nil_append,
      script.join]
    rfl
  rw [parse_eq_of_tokens lib _ _ _ hne hloop]
  rfl

/-! ### The signed byte encoding of a number -/

theorem signed_bytes_length_le (negative : Bool) (fuel : Nat) :
    ∀ n k : Nat, n < 128 * 256 ^ k → (signed_bytes negative fuel n).length ≤ k + 1 := by
  induction fuel with
  | zero => intro n k _; simp [signed_bytes]
  | succ fuel ih =>
    intro n k hk
    unfold signed_bytes
    by_cases h0 : n = 0
    · simp [h0]
    · by_cases h1 : n < 128
      · simp [h0, h1]
      · have hkpos : k ≠ 0 := by
          intro hc
          rw [hc] at hk
          simp at hk
          omega
        obtain ⟨j, rfl⟩ := Nat.exists_eq_succ_of_ne_zero hkpos
        by_cases h2 : n < 256
        · simp [h0, h1, h2]
        · have hdiv : n / 256 < 128 * 256 ^ j := by
            rw [Nat.div_lt_iff_lt_mul (by decide)]
            rw [pow_succ] at hk
            omega
          have := ih (n / 256) j hdiv
          simp only [h0, h1, h2, if_false, List.length_cons]
          omega

theorem signed_bytes_decode (negative : Bool) (fuel : Nat) :
    ∀ n : Nat, 0 < n → n ≤ fuel →
      signed_bytes negative fuel n ≠ [] ∧
      signed_magnitude (signed_bytes negative fuel n) = n ∧
      signed_negative (signed_bytes negative fuel n) = negative := by
  induction fuel with
  | zero => intro n h0 h1; omega
  | succ fuel ih =>
    intro n hpos hle
    unfold signed_bytes
    have h0 : n ≠ 0 := by omega
    by_cases h1 : n < 128
    · cases negative
      · simp only [h0, h1, if_false, if_true, ne_eq, List.cons_ne_nil, not_false_eq_true,
          signed_magnitude, signed_negative, to_byte, true_and, Bool.false_eq_true,
          decide_eq_false_iff_not]
        omega
      · simp only [h0, h1, if_false, if_true, ne_eq, List.cons_ne_nil, not_false_eq_true,
          signed_magnitude, signed_negative, to_byte, true_and, decide_eq_true_eq]
        omega
    · by_cases h2 : n < 256
      · cases negative
        · simp only [h0, h1, h2, if_false, if_true, ne_eq, List.cons_ne_nil, not_false_eq_true,
            signed_magnitude, signed_negative, to_byte, true_and, Bool.false_eq_true,
            decide_eq_false_iff_not]
          omega
        · simp only [h0, h1, h2, if_false, if_true, ne_eq, List.cons_ne_nil,
            not_false_eq_true, signed_magnitude, signed_negative, to_byte, true_and,
            decide_eq_true_eq]
          omega
      · have hq : 0 < n / 256 := Nat.div_pos (by omega) (by decide)
        have hqle : n / 256 ≤ fuel := by
          have := Nat.div_le_self n 256
          have : n / 256 < n := Nat.div_lt_self hpos (by decide)
          omega
        obtain ⟨hne, hmag, hneg⟩ := ih (n / 256) hq hqle
        simp only [h0, h1, h2, if_false, ne_eq, List.cons_ne_nil, not_false_eq_true, true_and]
        obtain ⟨c, rest, hcr⟩ := List.exists_cons_of_ne_nil hne
        rw [hcr] at hmag hneg
        rw [hcr]
        simp only [signed_magnitude, signed_negative, hmag, hneg, to_byte, and_true]
        omega

theorem decode_signed_bignum_data (value : Int) : decode_signed (bignum_data value) = value := by
  unfold bignum_data decode_signed
  by_cases hz : value = 0
  · subst hz
    rfl
  · have hpos : 0 < value.natAbs := Int.natAbs_pos.mpr hz
    obtain ⟨_, hmag, hneg⟩ :=
      signed_bytes_decode (decide (value < 0)) value.natAbs value.natAbs hpos (le_refl _)
    rw [hmag, hneg]
    by_cases hlt : value < 0
    · simp only [hlt, decide_True, if_true]
      omega
    · simp only [hlt, decide_False, Bool.false_eq_true, if_false]
      omega

theorem signed_magnitude_lt (bytes : data_chunk) :
    signed_magnitude bytes < 128 * 256 ^ (bytes.length - 1) := by
  induction bytes with
  | nil => simp [signed_magnitude]
  | cons b rest ih =>
    cases rest with
    | nil =>
      simp only [signed_magnitude, List.length_singleton, Nat.sub_self, pow_zero, mul_one]
      omega
    | cons c rest =>
      simp only [signed_magnitude, List.length_cons, Nat.add_sub_cancel] at ih ⊢
      rw [pow_succ]
      have hb := b.isLt
      omega

theorem bignum_data_minimal (value : Int) (bytes : data_chunk)
    (h : decode_signed bytes = value) : (bignum_data value).length ≤ bytes.length := by
  cases bytes with
  | nil =>
    have hv : value = 0 := by rw [← h]; rfl
    subst hv
    exact le_refl _
  | cons b rest =>
    have hmag : value.natAbs = signed_magnitude (b :: rest) := by
      rw [← h]
      unfold decode_signed
      split <;> simp
    have hlt := signed_magnitude_lt (b :: rest)
    rw [← hmag] at hlt
    have := signed_bytes_length_le (decide (value < 0)) value.natAbs value.natAbs
      ((b :: rest).length - 1) hlt
    unfold bignum_data
    simp only [List.length_cons, Nat.add_sub_cancel] at this ⊢
    exact this

theorem lexical_cast_range (token : Str) (value : Int)
    (h : lexical_cast_int64 token = outcome.returned value) :
    value.natAbs ≤ 9223372036854775808 := by
  unfold lexical_cast_int64 at h
  simp only at h
  split_ifs at h with h1 h2 h3 h4 h5 h6 h7
  all_goals cases h
  all_goals simp only [Int.natAbs_neg, Int.natAbs_ofNat, Int.natAbs_cast]
  all_goals omega

theorem push_data_special (result_script : script) (data : data_chunk)
    (hne : data ≠ []) (hlt : data.length < 76) :
    push_data result_script data = outcome.returned
      { operations := result_script.operations ++ [⟨opcode.special, data⟩] } := by
  have he : data.isEmpty = false := by
    cases data with
    | nil => exact absurd rfl hne
    | cons a t => rfl
  unfold push_data
  simp only [he, hlt, Bool.false_eq_true, if_false, if_true]
  rfl

theorem push_data_bignum (result_script : script) (value : Int)
    (hrange : value.natAbs ≤ 9223372036854775808) :
    push_data result_script (bignum_data value) = outcome.returned
      { operations := result_script.operations ++
          [⟨if value = 0 then opcode.zero else opcode.special, bignum_data value⟩] } := by
  by_cases hz : value = 0
  · subst hz
    rfl
  · have hpos : 0 < value.natAbs := Int.natAbs_pos.mpr hz
    have hne : bignum_data value ≠ [] :=
      (signed_bytes_decode (decide (value < 0)) value.natAbs value.natAbs hpos (le_refl _)).1
    have hlen : (bignum_data value).length ≤ 8 + 1 :=
      signed_bytes_length_le (decide (value < 0)) value.natAbs value.natAbs 8
        (by norm_num; omega)
    rw [push_data_special result_script _ hne (by omega), if_neg hz]

/-- C9. A numeric token whose value `v` is neither -1 nor in 1..16, assembled alone from an
empty buffer into an empty script, succeeds with exactly one operation, the one that
`push_data` makes of the signed byte encoding of `v`: the opcode is `zero` for `v = 0`,
whose encoding is empty, and `special` otherwise. The encoding decodes back to `v`, and no
byte sequence that decodes to `v` is shorter. -/
theorem parse_other_literal (lib : script_library) (token : Str) (v : Int)
    (hnum : is_number token = true)
    (hval : lexical_cast_int64 token = outcome.returned v)
    (hminus : v ≠ -1) (hsmall : ¬ (1 ≤ v ∧ v ≤ 16)) :
    push_data { operations := [] } (bignum_data v)
      = outcome.returned
          { operations := [⟨if v = 0 then opcode.zero else opcode.special, bignum_data v⟩] } ∧
    parse lib { hex_raw := [], result_script := { operations := [] } } token
      = outcome.returned
          (true, { hex_raw := [],
                   result_script :=
                     { operations :=
                         [⟨if v = 0 then opcode.zero else opcode.special, bignum_data v⟩] } }) ∧
    decode_signed (bignum_data v) = v ∧
    (∀ bytes : data_chunk, decode_signed bytes = v → (bignum_data v).length ≤ bytes.length) ∧
    (v = 0 → bignum_data v = []) := by
  have hrange := lexical_cast_range token v hval
  have hpush := push_data_bignum { operations := [] } v hrange
  refine ⟨hpush, ?_, decode_signed_bignum_data v, bignum_data_minimal v, ?_⟩
  · rw [parse_single lib _ token (lexical_cast_ne_nil token v hval)
      (is_number_no_space token hnum), parse_token_number lib _ token v hnum hval]
    have hopx : is_opx v = false := by
      simp only [is_opx, Bool.or_eq_false_iff, beq_eq_false_iff_ne, ne_eq,
        Bool.and_eq_false_iff, decide_eq_false_iff_not]
      refine ⟨hminus, ?_⟩
      by_cases h1 : 1 ≤ v
      · exact Or.inr (fun h16 => hsmall ⟨h1, h16⟩)
      · exact Or.inl h1
    rw [hopx]
    simp only [Bool.false_eq_true, if_false]
    rw [hpush]
    simp only [outcome.bind, parse_token_flush, List.isEmpty_nil, Bool.not_true,
      Bool.false_eq_true, if_false, List.nil_append]
    rw [parse_token_ending]
    rfl
  · intro hz
    subst hz
    rfl

theorem parse_other_literal_witness :
    is_number "-128".toList = true ∧
    lexical_cast_int64 "-128".toList = outcome.returned (-128) ∧
    bignum_data (-128) = [0x80, 0x80] ∧
    parse model_library { hex_raw := [], result_script := { operations := [] } }
        "-128".toList
      = outcome.returned
          (true, { hex_raw := [],
                   result_script :=
                     { operations :=
                         [⟨if (-128 : Int) = 0 then opcode.zero else opcode.special,
                           bignum_data (-128)⟩] } }) :=
  ⟨by decide, by decide, by decide,
   (parse_other_literal model_library "-128".toList (-128) (by decide) (by decide)
     (by decide) (by decide)).2.1⟩

/-! ### Spend reference -/

theorem little_endian_4_round_trip (l : data_chunk) (h : l.length = 4) :
    little_endian_4 (to_uint32 (from_little_endian l)) = l := by
  match l, h with
  | [a, b, c, d], _ =>
    simp only [from_little_endian, little_endian_4, to_uint32, to_byte, List.cons.injEq,
      and_true]
    refine ⟨?_, ?_, ?_, ?_⟩ <;> apply Fin.ext <;> simp only <;> omega

theorem from_little_endian_4 (value : uint32) :
    from_little_endian (little_endian_4 value) = value.val := by
  simp only [from_little_endian, little_endian_4, to_byte]
  omega

theorem from_data_short (self : point) (source : data_chunk) (h : source.length < 36) :
    self.from_data source =
      (false, { hash := ⟨List.replicate 32 0, List.length_replicate _ _⟩, index := 0 }) := by
  simp only [point.from_data, point.from_data_reader, reader.read_hash,
    reader.read_4_bytes_little_endian, reader.read_bytes, data_source, reader.to_bool,
    hash_size, point.reset]
  by_cases h32 : source.length < 32
  · simp [h32]
  · have h4 : source.length - 32 < 4 := by omega
    simp [h32, h4]

theorem from_data_long (self : point) (source : data_chunk) (h : 36 ≤ source.length) :
    (self.from_data source).1 = true ∧
    (self.from_data source).2.hash.val = source.take 32 ∧
    (self.from_data source).2.index
      = to_uint32 (from_little_endian ((source.drop 32).take 4)) := by
  have h32 : ¬ source.length < 32 := by omega
  have h4 : ¬ source.length - 32 < 4 := by omega
  have e32 : min 32 source.length = 32 := by omega
  have e4 : min 4 (source.length - 32) = 4 := by omega
  simp [point.from_data, point.from_data_reader, reader.read_hash,
    reader.read_4_bytes_little_endian, reader.read_bytes, data_source, reader.to_bool,
    hash_size, point.reset, h32, h4, e32, e4]

theorem to_data_eq (self : point) :
    self.to_data = outcome.returned (self.hash.val ++ little_endian_4 self.index) := by
  have hl : (self.hash.val ++ little_endian_4 self.index).length = 36 := by
    have h := self.hash.property
    simp only [hash_size] at h
    simp [little_endian_4, h]
  unfold point.to_data
  simp only [point.to_data_writer, List.nil_append, point.serialized_size,
    point.satoshi_fixed_size, hash_size]
  rw [hl]
  rfl

/-- C4. Round trip: decoding a 36-byte buffer succeeds, whatever the record held before,
and encoding the decoded record returns the buffer. -/
theorem from_data_to_data_round_trip (self : point) (b : data_chunk) (h : b.length = 36) :
    (self.from_data b).1 = true ∧ (self.from_data b).2.to_data = outcome.returned b := by
  obtain ⟨hok, hhash, hindex⟩ := from_data_long self b (by omega)
  refine ⟨hok, ?_⟩
  rw [to_data_eq, hhash, hindex,
    little_endian_4_round_trip _ (by simp only [List.length_take, List.length_drop]; omega)]
  have e : List.take 4 (List.drop 32 b) = List.drop 32 b :=
    List.take_of_length_le (by simp only [List.length_drop]; omega)
  rw [e, List.take_append_drop]

theorem from_data_to_data_round_trip_witness :
    ((List.range 36).map to_byte).length = 36 ∧
    ((point.mk null_hash 7).from_data ((List.range 36).map to_byte)).1 = true ∧
    ((point.mk null_hash 7).from_data ((List.range 36).map to_byte)).2.to_data
      = outcome.returned ((List.range 36).map to_byte) :=
  ⟨by decide, from_data_to_data_round_trip (point.mk null_hash 7) _ (by decide)⟩

theorem list_eight (l : data_chunk) (h : l.length = 32) :
    ∃ a0 a1 a2 a3 a4 a5 a6 a7 rest, l = a0 :: a1 :: a2 :: a3 :: a4 :: a5 :: a6 :: a7 :: rest := by
  rcases l with _ | ⟨a0, _ | ⟨a1, _ | ⟨a2, _ | ⟨a3, _ | ⟨a4, _ | ⟨a5, _ | ⟨a6, _ | ⟨a7, rest⟩⟩⟩⟩⟩⟩⟩⟩
  all_goals first
    | exact ⟨a0, a1, a2, a3, a4, a5, a6, a7, rest, rfl⟩
    | (simp only [List.length_cons, List.length_nil] at h; omega)

theorem outcome.returned_bind {α β : Type} (a : α) (f : α → outcome β) :
    (outcome.returned a >>= f) = f a := rfl

theorem outcome.pure_eq {α : Type} (a : α) : (pure a : outcome α) = outcome.returned a := rfl


theorem checksum_eq_spec (self : point) :
    self.checksum = outcome.returned (checksum_spec self.hash self.index) := by
  obtain ⟨⟨l, hl⟩, index⟩ := self
  obtain ⟨a0, a1, a2, a3, a4, a5, a6, a7, rest, rfl⟩ := list_eight l hl
  have hshift : (1 <<< 63 : Nat) = 9223372036854775808 := by
    rw [Nat.shiftLeft_eq]
  have hdiv : ((9223372036854775808 : Nat) % 2 == 0) = true := by rfl
  have hmask : ((9223372036854775808 : Nat) + 18446744073709551616 - 1) % 18446744073709551616
      = 2 ^ 63 - 1 := by norm_num
  have hr : List.range 8 = [0, 1, 2, 3, 4, 5, 6, 7] := by decide
  simp only [point.checksum, remainder, hshift, BITCOIN_ASSERT,
    hash_digest.write_4_bytes_little_endian, little_endian_4, checksum_spec, hdiv, if_true,
    outcome.returned_bind, outcome.pure_eq, hmask, Nat.and_pow_two_sub_one_eq_mod, hr]
  refine congrArg outcome.returned (congrArg (fun x => x % 2 ^ 63) ?_)
  simp only [List.cons_append, List.nil_append, List.drop_succ_cons, List.drop_zero,
    List.take_succ_cons, List.take_zero, from_little_endian, List.set_cons_zero,
    List.set_cons_succ, List.map_cons, List.map_nil, List.getD_cons_zero, List.getD_cons_succ,
    List.sum_cons, List.sum_nil]
  omega

/-- C5. The checksum of a record is the value that the spec describes: the index is
written, least significant byte first, over the bytes 0 to 3 of a copy of the hash, the
bytes 0 to 7 of the copy are read as a little-endian integer, and that integer is taken
modulo 2^63; the record is an argument that the function only reads. For the hash of 32
zero bytes and the index 1 the checksum is 1. -/
theorem checksum_contract :
    (∀ self : point, self.checksum = outcome.returned (checksum_spec self.hash self.index)) ∧
    (point.mk null_hash 1).checksum = outcome.returned 1 :=
  ⟨checksum_eq_spec, by decide⟩

/-- C6. A source of fewer than 36 bytes makes `from_data` return false and leaves the
default record, whatever the record held before; a source of at least 36 bytes makes it
return true with the hash equal to the bytes 0 to 31 and the index equal to the
little-endian value of the bytes 32 to 35. -/
theorem from_data_contract (self : point) (source : data_chunk) :
    (source.length < 36 →
      self.from_data source =
        (false, { hash := ⟨List.replicate 32 0, List.length_replicate _ _⟩, index := 0 })) ∧
    (36 ≤ source.length →
      (self.from_data source).1 = true ∧
      (self.from_data source).2.hash.val = source.take 32 ∧
      (self.from_data source).2.index.val = from_little_endian ((source.drop 32).take 4)) := by
  refine ⟨from_data_short self source, fun h => ?_⟩
  obtain ⟨hok, hhash, hindex⟩ := from_data_long self source h
  refine ⟨hok, hhash, ?_⟩
  rw [hindex]
  have h4 : ((source.drop 32).take 4).length = 4 := by
    simp only [List.length_take, List.length_drop]; omega
  have e := from_little_endian_4 (to_uint32 (from_little_endian ((source.drop 32).take 4)))
  rw [little_endian_4_round_trip _ h4] at e
  exact e.symm

theorem from_data_contract_witness :
    (point.mk ⟨List.replicate 32 9, rfl⟩ 7).from_data ((List.range 35).map to_byte) =
      (false, { hash := ⟨List.replicate 32 0, List.length_replicate _ _⟩, index := 0 }) :=
  (from_data_contract (point.mk ⟨List.replicate 32 9, rfl⟩ 7)
    ((List.range 35).map to_byte)).1 (by decide)

/-- C7. For every record `to_data` returns the 32 hash bytes followed by the four bytes of
the index, least significant first; the length is 36, which is `satoshi_fixed_size()` and
`serialized_size()`, so the assertion on the size holds and the call returns. -/
theorem to_data_layout (self : point) :
    self.to_data = outcome.returned (self.hash.val ++ little_endian_4 self.index) ∧
    self.hash.val.length = 32 ∧
    (little_endian_4 self.index).length = 4 ∧
    from_little_endian (little_endian_4 self.index) = self.index.val ∧
    (self.hash.val ++ little_endian_4 self.index).length = 36 ∧
    point.satoshi_fixed_size = 36 ∧
    self.serialized_size = 36 := by
  have h := self.hash.property
  simp only [hash_size] at h
  refine ⟨to_data_eq self, h, rfl, from_little_endian_4 _, ?_, rfl, rfl⟩
  simp [little_endian_4, h]

/-! ### Tokens of no class -/

theorem parse_tokens_append (lib : script_library) (pre rest : List Str)
    (st st1 : parse_state)
    (h : parse_tokens lib st pre = outcome.returned (true, st1)) :
    parse_tokens lib st (pre ++ rest) = parse_tokens lib st1 rest := by
  induction pre generalizing st with
  | nil =>
    have e : parse_tokens lib st [] = outcome.returned (true, st) := by
      rw [parse_tokens]; rfl
    rw [e] at h
    injection h with h
    injection h with _ h
    rw [h]
    rfl
  | cons t pre ih =>
    rw [List.cons_append, parse_tokens_cons]
    rw [parse_tokens_cons] at h
    cases hr : parse_token lib st t with
    | returned r =>
      obtain ⟨accepted, st2⟩ := r
      rw [hr] at h
      cases accepted with
      | false =>
        simp only [outcome.bind, Bool.not_false, if_true] at h
        injection h with h
        injection h with h _
        cases h
      | true =>
        simp only [outcome.bind, Bool.not_true, Bool.false_eq_true, if_false] at h ⊢
        exact ih st2 h
    | assertion_failed => rw [hr] at h; cases h
    | bad_lexical_cast => rw [hr] at h; cases h

/-- A token of no class other than `ENDING` is refused, and nothing is changed. -/
theorem parse_token_unrecognized (lib : script_library) (st : parse_state) (t : Str)
    (hending : t ≠ "ENDING".toList) (hnum : is_number t = false)
    (hhex : is_hex_data t = false) (hquoted : is_quoted_string t = false)
    (hop : is_opcode lib t = false) :
    parse_token lib st t = outcome.returned (false, st) := by
  unfold parse_token
  rw [if_neg hending, hnum, hhex, hquoted, hop]
  rfl

theorem parse_of_tokens_false (lib : script_library) (st st1 : parse_state) (format : Str)
    (hne : format ≠ [])
    (h : parse_tokens lib st (split format) = outcome.returned (false, st1)) :
    parse lib st format = outcome.returned (false, st1) := by
  unfold parse
  have hf : format.isEmpty = false := by
    cases format with
    | nil => exact absurd rfl hne
    | cons a t => rfl
  rw [hf]
  simp only [Bool.false_eq_true, if_false]
  show (parse_tokens lib st (split format)).bind _ = _
  rw [h]
  rfl

theorem intercalate_ne_nil (tokens : List Str) (t : Str) (hmem : t ∈ tokens) (ht : t ≠ [])
    (hsp : ∀ u ∈ tokens, ' ' ∉ u) : " ".toList.intercalate tokens ≠ [] := by
  intro hc
  have hsplit := split_intercalate tokens (List.ne_nil_of_mem hmem) hsp
  rw [hc] at hsplit
  have e : split [] = [[]] := rfl
  rw [e] at hsplit
  rw [← hsplit] at hmem
  exact ht (List.mem_singleton.mp hmem)

/-- C11, as amended. A token other than `ENDING` that is no numeric literal, no hex
fragment, no quoted string and no opcode mnemonic makes `parse` return false on every
input in which it is reached, that is, in which `parse_token` accepts each token before
it; the state handed back is the one those tokens left. -/
theorem parse_unrecognized_token (lib : script_library) (st st1 : parse_state)
    (before after : List Str) (t : Str)
    (hspace : ∀ u ∈ before ++ t :: after, ' ' ∉ u)
    (hending : t ≠ "ENDING".toList) (hnum : is_number t = false)
    (hhex : is_hex_data t = false) (hquoted : is_quoted_string t = false)
    (hop : is_opcode lib t = false)
    (hreach : parse_tokens lib st before = outcome.returned (true, st1)) :
    parse lib st (" ".toList.intercalate (before ++ t :: after))
      = outcome.returned (false, st1) := by
  have ht : t ≠ [] := by
    intro hc
    rw [hc] at hnum
    exact absurd hnum (by decide)
  have hmem : t ∈ before ++ t :: after := by simp
  have hne := intercalate_ne_nil _ t hmem ht hspace
  apply parse_of_tokens_false lib st st1 _ hne
  rw [split_intercalate _ (List.ne_nil_of_mem hmem) hspace,
    parse_tokens_append lib before (t :: after) st st1 hreach, parse_tokens_cons,
    parse_token_unrecognized lib st1 t hending hnum hhex hquoted hop]
  rfl

theorem parse_unrecognized_token_witness :
    (∀ u ∈ ["5".toList] ++ "???".toList :: ["dup".toList], ' ' ∉ u) ∧
    "???".toList ≠ "ENDING".toList ∧
    is_number "???".toList = false ∧ is_hex_data "???".toList = false ∧
    is_quoted_string "???".toList = false ∧ is_opcode model_library "???".toList = false ∧
    parse_tokens model_library { hex_raw := [], result_script := { operations := [] } }
        ["5".toList]
      = outcome.returned
          (true, { hex_raw := [], result_script := { operations := [⟨opcode.op_5, []⟩] } }) ∧
    parse model_library { hex_raw := [], result_script := { operations := [] } }
        (" ".toList.intercalate (["5".toList] ++ "???".toList :: ["dup".toList]))
      = outcome.returned
          (false, { hex_raw := [], result_script := { operations := [⟨opcode.op_5, []⟩] } }) :=
  ⟨by decide, by decide, by decide, by decide, by decide, by decide, by decide,
   parse_unrecognized_token model_library _ _ ["5".toList] ["dup".toList] "???".toList
     (by decide) (by decide) (by decide) (by decide) (by decide) (by decide) (by decide)⟩

/-- C11. Two inputs that hold a token of no class and on which `parse` does not return
false: the token `ENDING` is none of a numeric literal, a hex fragment, a quoted string or
an opcode mnemonic, and `parse` returns true on it; in `-1 ???` the token `???` is never
reached, the call stops on the assertion for `-1`. The witness `???` of the claim does
make `parse` return false. -/
theorem parse_unrecognized_not_false :
    is_number "ENDING".toList = false ∧ is_hex_data "ENDING".toList = false ∧
    is_quoted_string "ENDING".toList = false ∧
    is_opcode model_library "ENDING".toList = false ∧
    parse model_library { hex_raw := [], result_script := { operations := [] } }
        "ENDING".toList
      = outcome.returned (true, { hex_raw := [], result_script := { operations := [] } }) ∧
    parse model_library { hex_raw := [], result_script := { operations := [] } }
        "-1 ???".toList
      = outcome.assertion_failed ∧
    parse model_library { hex_raw := [], result_script := { operations := [] } }
        "???".toList
      = outcome.returned (false, { hex_raw := [], result_script := { operations := [] } }) := by
  decide

/-- On `ENDING` as the whole input `parse` returns true for every library. -/
theorem parse_ending (lib : script_library) (s : script) :
    parse lib { hex_raw := [], result_script := s } "ENDING".toList
      = outcome.returned (true, { hex_raw := [], result_script := s }) := by
  rw [parse_single lib _ _ (by decide) (by decide), parse_token_ending]
  simp only [outcome.bind, parse_token_flush, List.isEmpty_nil, Bool.not_true,
    Bool.false_eq_true, if_false]
  rw [parse_token_ending]
  rfl

/-! ### What a failed call leaves behind -/

theorem parse_token_flush_fst (lib : script_library) (hex_raw : data_chunk) (s : script) :
    (parse_token_flush lib hex_raw s).1 = true := by
  unfold parse_token_flush
  split <;> rfl

/-- A quoted token: what `parse_token` does with it. -/
theorem parse_token_quoted (lib : script_library) (st : parse_state) (token : Str)
    (hending : token ≠ "ENDING".toList) (hnum : is_number token = false)
    (hhex : is_hex_data token = false) (hquoted : is_quoted_string token = true) :
    parse_token lib st token =
      (push_data st.result_script (((token.drop 1).dropLast).map (fun c => to_byte c.toNat))).bind
        (fun result_script =>
          outcome.returned (parse_token_flush lib st.hex_raw result_script)) := by
  unfold parse_token
  rw [if_neg hending, hnum, hhex, hquoted]
  rfl

/-- An opcode mnemonic: what `parse_token` does with it. -/
theorem parse_token_opcode (lib : script_library) (st : parse_state) (token : Str)
    (hending : token ≠ "ENDING".toList) (hnum : is_number token = false)
    (hhex : is_hex_data token = false) (hquoted : is_quoted_string token = false)
    (hop : is_opcode lib token = true) :
    parse_token lib st token =
      outcome.returned (parse_token_flush lib st.hex_raw
        (st.result_script.push_operation ⟨token_to_opcode lib token, []⟩)) := by
  unfold parse_token
  rw [if_neg hending, hnum, hhex, hquoted, hop]
  rfl

/-- A numeric token: what `parse_token` does with it. -/
theorem parse_token_number_bind (lib : script_library) (st : parse_state) (token : Str)
    (hnum : is_number token = true) :
    parse_token lib st token =
      (lexical_cast_int64 token).bind (fun value =>
        (if is_opx value then push_literal st.result_script value
          else push_data st.result_script (bignum_data value)).bind (fun result_script =>
            outcome.returned (parse_token_flush lib st.hex_raw result_script))) := by
  cases hv : lexical_cast_int64 token with
  | returned v => rw [parse_token_number lib st token v hnum hv]; rfl
  | assertion_failed =>
    unfold parse_token
    rw [if_neg (is_number_not_ending token hnum), hnum]
    simp only [if_true]
    show (lexical_cast_int64 token).bind _ = _
    rw [hv]
    rfl
  | bad_lexical_cast =>
    unfold parse_token
    rw [if_neg (is_number_not_ending token hnum), hnum]
    simp only [if_true]
    show (lexical_cast_int64 token).bind _ = _
    rw [hv]
    rfl

theorem bind_flush_ne_false (lib : script_library) (hex_raw : data_chunk)
    (x : outcome script) (st1 : parse_state) :
    x.bind (fun result_script =>
      outcome.returned (parse_token_flush lib hex_raw result_script))
      ≠ outcome.returned (false, st1) := by
  intro h
  cases x with
  | returned s =>
    simp only [outcome.bind] at h
    injection h with h
    have hf := parse_token_flush_fst lib hex_raw s
    rw [h] at hf
    cases hf
  | assertion_failed => cases h
  | bad_lexical_cast => cases h

/-- The only way for `parse_token` to return false is its last branch, which changes
nothing. -/
theorem parse_token_false (lib : script_library) (st st1 : parse_state) (t : Str)
    (h : parse_token lib st t = outcome.returned (false, st1)) : st1 = st := by
  by_cases hending : t = "ENDING".toList
  · rw [hending, parse_token_ending] at h
    injection h with h
    have hf := parse_token_flush_fst lib st.hex_raw st.result_script
    rw [h] at hf
    cases hf
  · cases hnum : is_number t with
    | true =>
      rw [parse_token_number_bind lib st t hnum] at h
      cases hv : lexical_cast_int64 t with
      | returned v =>
        rw [hv] at h
        exact absurd h (bind_flush_ne_false lib _ _ _)
      | assertion_failed => rw [hv] at h; cases h
      | bad_lexical_cast => rw [hv] at h; cases h
    | false =>
      cases hhex : is_hex_data t with
      | true =>
        rw [parse_token_hex lib st t hhex] at h
        injection h with h
        injection h with h _
        cases h
      | false =>
        cases hquoted : is_quoted_string t with
        | true =>
          rw [parse_token_quoted lib st t hending hnum hhex hquoted] at h
          exact absurd h (bind_flush_ne_false lib _ _ _)
        | false =>
          cases hop : is_opcode lib t with
          | true =>
            rw [parse_token_opcode lib st t hending hnum hhex hquoted hop] at h
            injection h with h
            have hf := parse_token_flush_fst lib st.hex_raw
              (st.result_script.push_operation ⟨token_to_opcode lib t, []⟩)
            rw [h] at hf
            cases hf
          | false =>
            rw [parse_token_unrecognized lib st t hending hnum hhex hquoted hop] at h
            injection h with h
            injection h with _ h
            exact h.symm

theorem parse_tokens_false (lib : script_library) (tokens : List Str) :
    ∀ st st1 : parse_state, parse_tokens lib st tokens = outcome.returned (false, st1) →
      ∃ (before : List Str) (t : Str) (after : List Str),
        tokens = before ++ t :: after ∧
        parse_tokens lib st before = outcome.returned (true, st1) ∧
        parse_token lib st1 t = outcome.returned (false, st1) := by
  induction tokens with
  | nil =>
    intro st st1 h
    rw [parse_tokens] at h
    cases h
  | cons t rest ih =>
    intro st st1 h
    rw [parse_tokens_cons] at h
    cases hr : parse_token lib st t with
    | returned r =>
      obtain ⟨accepted, st2⟩ := r
      rw [hr] at h
      cases accepted with
      | false =>
        simp only [outcome.bind, Bool.not_false, if_true] at h
        injection h with h
        injection h with _ h
        subst h
        have hst := parse_token_false lib st st2 t hr
        subst hst
        exact ⟨[], t, rest, rfl, by rw [parse_tokens]; rfl, hr⟩
      | true =>
        simp only [outcome.bind, Bool.not_true, Bool.false_eq_true, if_false] at h
        obtain ⟨before, u, after, htok, hpre, hu⟩ := ih st2 st1 h
        refine ⟨t :: before, u, after, by rw [htok]; rfl, ?_, hu⟩
        rw [parse_tokens_cons, hr]
        simpa only [outcome.bind, Bool.not_true, Bool.false_eq_true, if_false] using hpre
    | assertion_failed => rw [hr] at h; cases h
    | bad_lexical_cast => rw [hr] at h; cases h

theorem parse_false_tokens (lib : script_library) (st st1 : parse_state) (format : Str)
    (h : parse lib st format = outcome.returned (false, st1)) :
    parse_tokens lib st (split format) = outcome.returned (false, st1) := by
  unfold parse at h
  cases hf : format.isEmpty with
  | true =>
    rw [hf] at h
    simp only [if_true] at h
    cases h
  | false =>
    rw [hf] at h
    simp only [Bool.false_eq_true, if_false] at h
    change (parse_tokens lib st (split format)).bind _ = _ at h
    cases hr : parse_tokens lib st (split format) with
    | returned r =>
      obtain ⟨accepted, st2⟩ := r
      rw [hr] at h
      cases accepted with
      | false =>
        simp only [outcome.bind, Bool.not_false, if_true] at h
        exact h
      | true =>
        simp only [outcome.bind, Bool.not_true, Bool.false_eq_true, if_false] at h
        change (parse_token lib st2 "ENDING".toList).bind _ = _ at h
        rw [parse_token_ending] at h
        simp only [outcome.bind] at h
        cases h
    | assertion_failed => rw [hr] at h; cases h
    | bad_lexical_cast => rw [hr] at h; cases h

/-- C12, as amended. When `parse` returns false the script is not restored: the loop has
stopped at the first token that `parse_token` refuses, and the state handed back is the
one that the tokens before it produced, with every operation they appended; refusing the
token itself changes nothing. -/
theorem parse_failure_keeps_accepted (lib : script_library) (st st1 : parse_state)
    (format : Str) (h : parse lib st format = outcome.returned (false, st1)) :
    ∃ (before : List Str) (t : Str) (after : List Str),
      split format = before ++ t :: after ∧
      parse_tokens lib st before = outcome.returned (true, st1) ∧
      parse_token lib st1 t = outcome.returned (false, st1) :=
  parse_tokens_false lib (split format) st st1 (parse_false_tokens lib st st1 format h)

theorem parse_failure_keeps_accepted_witness :
    parse model_library { hex_raw := [], result_script := { operations := [] } }
        "5 ???".toList
      = outcome.returned
          (false, { hex_raw := [], result_script := { operations := [⟨opcode.op_5, []⟩] } }) ∧
    ∃ (before : List Str) (t : Str) (after : List Str),
      split "5 ???".toList = before ++ t :: after ∧
      parse_tokens model_library { hex_raw := [], result_script := { operations := [] } } before
        = outcome.returned
            (true, { hex_raw := [],
                     result_script := { operations := [⟨opcode.op_5, []⟩] } }) ∧
      parse_token model_library
          { hex_raw := [], result_script := { operations := [⟨opcode.op_5, []⟩] } } t
        = outcome.returned
            (false, { hex_raw := [],
                      result_script := { operations := [⟨opcode.op_5, []⟩] } }) :=
  ⟨by decide, parse_failure_keeps_accepted model_library _ _ "5 ???".toList (by decide)⟩

/-- C12. On `5 ???` the call returns false and the script handed back holds `op_5`, the
operation of the token accepted before the offending one; on entry it was empty. -/
theorem parse_failure_not_atomic :
    parse model_library { hex_raw := [], result_script := { operations := [] } }
        "5 ???".toList
      = outcome.returned
          (false, { hex_raw := [], result_script := { operations := [⟨opcode.op_5, []⟩] } }) := by
  decide

/-! ### The accumulation buffer across calls -/

theorem parse_token_flush_hex (lib : script_library) (hex_raw : data_chunk) (s : script) :
    (parse_token_flush lib hex_raw s).2.hex_raw = [] := by
  unfold parse_token_flush
  cases hex_raw with
  | nil => rfl
  | cons a l => rfl

/-- A call of `parse` that returns true on an input that is not empty leaves the buffer
empty. -/
theorem parse_true_clears (lib : script_library) (st st1 : parse_state) (format : Str)
    (hne : format ≠ [])
    (h : parse lib st format = outcome.returned (true, st1)) : st1.hex_raw = [] := by
  unfold parse at h
  have hf : format.isEmpty = false := by
    cases format with
    | nil => exact absurd rfl hne
    | cons a t => rfl
  rw [hf] at h
  simp only [Bool.false_eq_true, if_false] at h
  change (parse_tokens lib st (split format)).bind _ = _ at h
  cases hr : parse_tokens lib st (split format) with
  | returned r =>
    obtain ⟨accepted, st2⟩ := r
    rw [hr] at h
    cases accepted with
    | false =>
      simp only [outcome.bind, Bool.not_false, if_true] at h
      injection h with h
      injection h with h _
      cases h
    | true =>
      simp only [outcome.bind, Bool.not_true, Bool.false_eq_true, if_false] at h
      change (parse_token lib st2 "ENDING".toList).bind _ = _ at h
      rw [parse_token_ending] at h
      simp only [outcome.bind] at h
      injection h with h
      injection h with _ h
      rw [← h]
      exact parse_token_flush_hex lib _ _
  | assertion_failed => rw [hr] at h; cases h
  | bad_lexical_cast => rw [hr] at h; cases h

/-- After a call that returned true the next call behaves as a call on its own. -/
theorem parse_after_success (lib : script_library) (a b : Str) (st1 : parse_state)
    (h : parse lib { hex_raw := [], result_script := { operations := [] } } a
      = outcome.returned (true, st1)) :
    parse_after lib a b
      = parse lib { hex_raw := [], result_script := { operations := [] } } b := by
  have hhex : st1.hex_raw = [] := by
    by_cases hne : a = []
    · rw [hne] at h
      have e : parse lib { hex_raw := [], result_script := { operations := [] } } []
          = outcome.returned (true, { hex_raw := [], result_script := { operations := [] } }) :=
        rfl
      rw [e] at h
      injection h with h
      injection h with _ h
      rw [← h]
    · exact parse_true_clears lib _ st1 a hne h
  unfold parse_after
  rw [h]
  simp only [outcome.bind, hhex]

/-- C13. The call on `0x00 ???` returns false and leaves the byte `00` in the static
buffer; the call on `5` that follows returns a script with `op_5` and the operation
decoded from that byte, while the call on `5` alone returns the script with `op_5` only. -/
theorem parse_buffer_leaks :
    parse model_library { hex_raw := [], result_script := { operations := [] } }
        "0x00 ???".toList
      = outcome.returned
          (false, { hex_raw := [0x00], result_script := { operations := [] } }) ∧
    parse_after model_library "0x00 ???".toList "5".toList
      = outcome.returned
          (true, { hex_raw := [],
                   result_script :=
                     { operations := [⟨opcode.op_5, []⟩, ⟨opcode.zero, []⟩] } }) ∧
    parse model_library { hex_raw := [], result_script := { operations := [] } } "5".toList
      = outcome.returned
          (true, { hex_raw := [], result_script := { operations := [⟨opcode.op_5, []⟩] } }) := by
  decide

/-! ### Calls that return -/

theorem push_data_returns (result_script : script) (data : data_chunk)
    (hsize : data.length ≤ 4294967295) :
    ∃ code : opcode,
      push_data result_script data = outcome.returned
        { operations := result_script.operations ++ [⟨code, data⟩] } ∧
      (data = [] → code = opcode.zero) ∧ (data ≠ [] → data.length < 76 → code = opcode.special) := by
  cases hd : data with
  | nil => exact ⟨opcode.zero, rfl, fun _ => rfl, fun h => absurd rfl h⟩
  | cons a l =>
    rw [← hd]
    have hnil : data ≠ [] := by rw [hd]; exact List.cons_ne_nil _ _
    have hne : data.isEmpty = false := by rw [hd]; rfl
    unfold push_data
    by_cases h1 : data.length < 76
    · exact ⟨opcode.special,
        by simp only [hne, h1, Bool.false_eq_true, if_false, if_true]; rfl,
        fun h => absurd h hnil, fun _ _ => rfl⟩
    · by_cases h2 : data.length ≤ 0xff
      · exact ⟨opcode.pushdata1,
          by simp only [hne, h1, h2, Bool.false_eq_true, if_false, if_true]; rfl,
          fun h => absurd h hnil, fun _ h => absurd h h1⟩
      · by_cases h3 : data.length ≤ 0xffff
        · exact ⟨opcode.pushdata2,
            by simp only [hne, h1, h2, h3, Bool.false_eq_true, if_false, if_true]; rfl,
            fun h => absurd h hnil, fun _ h => absurd h h1⟩
        · have h4 : data.length ≤ 0xffffffff := hsize
          exact ⟨opcode.pushdata4, by
            simp only [hne, h1, h2, h3, h4, Bool.false_eq_true, if_false, BITCOIN_ASSERT,
              decide_True, if_true]
            rfl, fun h => absurd h hnil, fun _ h => absurd h h1⟩

theorem parse_token_returns (lib : script_library) (st : parse_state) (t : Str)
    (hnum : is_number t = true →
      ∃ v : Int, lexical_cast_int64 t = outcome.returned v ∧ v ≠ -1)
    (hquoted : is_quoted_string t = true → t.length - 2 ≤ 4294967295) :
    ∃ r : Bool × parse_state, parse_token lib st t = outcome.returned r := by
  by_cases hending : t = "ENDING".toList
  · rw [hending, parse_token_ending]
    exact ⟨_, rfl⟩
  · cases hn : is_number t with
    | true =>
      obtain ⟨v, hv, hm⟩ := hnum hn
      rw [parse_token_number lib st t v hn hv]
      cases hopx : is_opx v with
      | true =>
        have hr : 1 ≤ v ∧ v ≤ 16 := by
          simp only [is_opx, Bool.or_eq_true, beq_iff_eq, Bool.and_eq_true,
            decide_eq_true_eq] at hopx
          rcases hopx with h | h
          · exact absurd h hm
          · exact h
        simp only [if_true]
        rw [push_literal_small _ v hr.1 hr.2]
        exact ⟨_, rfl⟩
      | false =>
        simp only [Bool.false_eq_true, if_false]
        rw [push_data_bignum _ v (lexical_cast_range t v hv)]
        exact ⟨_, rfl⟩
    | false =>
      cases hhex : is_hex_data t with
      | true =>
        rw [parse_token_hex lib st t hhex]
        exact ⟨_, rfl⟩
      | false =>
        cases hq : is_quoted_string t with
        | true =>
          rw [parse_token_quoted lib st t hending hn hhex hq]
          have hlen : (((t.drop 1).dropLast).map (fun c => to_byte c.toNat)).length
              ≤ 4294967295 := by
            have := hquoted hq
            simp only [List.length_map, List.length_dropLast, List.length_drop]
            omega
          obtain ⟨code, hs, _⟩ := push_data_returns st.result_script _ hlen
          rw [hs]
          exact ⟨_, rfl⟩
        | false =>
          cases hop : is_opcode lib t with
          | true =>
            rw [parse_token_opcode lib st t hending hn hhex hq hop]
            exact ⟨_, rfl⟩
          | false =>
            rw [parse_token_unrecognized lib st t hending hn hhex hq hop]
            exact ⟨_, rfl⟩

theorem parse_tokens_returns (lib : script_library) (tokens : List Str)
    (hnum : ∀ t ∈ tokens, is_number t = true →
      ∃ v : Int, lexical_cast_int64 t = outcome.returned v ∧ v ≠ -1)
    (hquoted : ∀ t ∈ tokens, is_quoted_string t = true → t.length - 2 ≤ 4294967295) :
    ∀ st : parse_state, ∃ r : Bool × parse_state,
      parse_tokens lib st tokens = outcome.returned r := by
  induction tokens with
  | nil =>
    intro st
    exact ⟨(true, st), by rw [parse_tokens]; rfl⟩
  | cons t rest ih =>
    intro st
    obtain ⟨⟨accepted, st1⟩, hr⟩ := parse_token_returns lib st t
      (hnum t (List.mem_cons_self _ _)) (hquoted t (List.mem_cons_self _ _))
    rw [parse_tokens_cons, hr]
    cases accepted with
    | false => exact ⟨_, rfl⟩
    | true =>
      simp only [outcome.bind, Bool.not_true, Bool.false_eq_true, if_false]
      exact ih (fun u hu => hnum u (List.mem_cons_of_mem _ hu))
        (fun u hu => hquoted u (List.mem_cons_of_mem _ hu)) st1

/-- A condition under which `parse` returns true or false: each token that `is_number`
accepts has a 64-bit signed value other than -1, and each quoted token holds at most
4294967295 bytes between its quotes. -/
theorem parse_returns (lib : script_library) (st : parse_state) (format : Str)
    (hnum : ∀ t ∈ split format, is_number t = true →
      ∃ v : Int, lexical_cast_int64 t = outcome.returned v ∧ v ≠ -1)
    (hquoted : ∀ t ∈ split format, is_quoted_string t = true → t.length - 2 ≤ 4294967295) :
    ∃ (accepted : Bool) (st1 : parse_state),
      parse lib st format = outcome.returned (accepted, st1) := by
  unfold parse
  cases hf : format.isEmpty with
  | true => exact ⟨true, st, rfl⟩
  | false =>
    simp only [Bool.false_eq_true, if_false]
    obtain ⟨⟨accepted, st1⟩, hr⟩ := parse_tokens_returns lib (split format) hnum hquoted st
    show ∃ (accepted : Bool) (st1 : parse_state),
      (parse_tokens lib st (split format)).bind _ = outcome.returned (accepted, st1)
    rw [hr]
    cases accepted with
    | false => exact ⟨false, st1, rfl⟩
    | true =>
      simp only [outcome.bind, Bool.not_true, Bool.false_eq_true, if_false]
      show ∃ (accepted : Bool) (st2 : parse_state),
        (parse_token lib st1 "ENDING".toList).bind _ = outcome.returned (accepted, st2)
      rw [parse_token_ending]
      exact ⟨true, _, rfl⟩

theorem parse_returns_witness :
    (∀ t ∈ split "16 dup ??? 0x00".toList, is_number t = true →
      ∃ v : Int, lexical_cast_int64 t = outcome.returned v ∧ v ≠ -1) ∧
    (∀ t ∈ split "16 dup ??? 0x00".toList, is_quoted_string t = true →
      t.length - 2 ≤ 4294967295) ∧
    ∃ (accepted : Bool) (st1 : parse_state),
      parse model_library { hex_raw := [], result_script := { operations := [] } }
        "16 dup ??? 0x00".toList = outcome.returned (accepted, st1) :=
  have hsplit : split "16 dup ??? 0x00".toList
      = ["16".toList, "dup".toList, "???".toList, "0x00".toList] := by decide
  have h1 : ∀ t ∈ split "16 dup ??? 0x00".toList, is_number t = true →
      ∃ v : Int, lexical_cast_int64 t = outcome.returned v ∧ v ≠ -1 := by
    intro t ht hn
    rw [hsplit] at ht
    simp only [List.mem_cons, List.mem_singleton, List.not_mem_nil, or_false] at ht
    rcases ht with h | h | h | h
    · exact ⟨16, by rw [h]; decide, by decide⟩
    · rw [h] at hn; exact absurd hn (by decide)
    · rw [h] at hn; exact absurd hn (by decide)
    · rw [h] at hn; exact absurd hn (by decide)
  have h2 : ∀ t ∈ split "16 dup ??? 0x00".toList, is_quoted_string t = true →
      t.length - 2 ≤ 4294967295 := by
    rw [hsplit]
    decide
  ⟨h1, h2, parse_returns model_library _ "16 dup ??? 0x00".toList h1 h2⟩

/-- C14. Four inputs on which `parse` returns neither true nor false. The lone `-`, the
empty token (the input is one space) and the digits of 2^63 are accepted by `is_number`,
the guard in front of the conversion, and `lexical_cast` throws on them with nothing to
catch it; the token `-1` is stopped by the assertion of `push_literal`. -/
theorem parse_aborts :
    is_number "-1".toList = true ∧
    parse model_library { hex_raw := [], result_script := { operations := [] } } "-1".toList
      = outcome.assertion_failed ∧
    is_number "-".toList = true ∧
    parse model_library { hex_raw := [], result_script := { operations := [] } } "-".toList
      = outcome.bad_lexical_cast ∧
    split " ".toList = [[], []] ∧ is_number [] = true ∧
    parse model_library { hex_raw := [], result_script := { operations := [] } } " ".toList
      = outcome.bad_lexical_cast ∧
    is_number "9223372036854775808".toList = true ∧
    parse model_library { hex_raw := [], result_script := { operations := [] } }
        "9223372036854775808".toList
      = outcome.bad_lexical_cast := by
  decide

/-! ### Quoted strings -/

theorem quoted_token_facts (inner : Str) (hspace : ' ' ∉ inner) :
    quote :: (inner ++ [quote]) ≠ "ENDING".toList ∧
    is_number (quote :: (inner ++ [quote])) = false ∧
    is_hex_data (quote :: (inner ++ [quote])) = false ∧
    is_quoted_string (quote :: (inner ++ [quote])) = true ∧
    ' ' ∉ quote :: (inner ++ [quote]) ∧
    ((quote :: (inner ++ [quote])).drop 1).dropLast = inner := by
  have e1 : "ENDING".toList = ['E', 'N', 'D', 'I', 'N', 'G'] := rfl
  have e2 : "-".toList = ['-'] := rfl
  have e3 : "0x".toList = ['0', 'x'] := rfl
  have hq : is_digit quote = false := by decide
  have hm : ('-' == quote) = false := by decide
  have h0 : ('0' == quote) = false := by decide
  refine ⟨?_, ?_, ?_, ?_, ?_, ?_⟩
  · rw [e1]
    intro hc
    injection hc with h _
    exact absurd h (by decide)
  · simp [is_number, starts_with, e2, List.isPrefixOf, hq, hm]
  · simp [is_hex_data, starts_with, e3, List.isPrefixOf, h0]
  · have hsuf : [quote] <:+ quote :: (inner ++ [quote]) :=
      ⟨quote :: inner, by simp⟩
    have hlen : ¬ (quote :: (inner ++ [quote])).length < 2 := by
      simp only [List.length_cons, List.length_append, List.length_nil]
      omega
    simp only [is_quoted_string, hlen, if_false, starts_with, ends_with, List.isPrefixOf,
      beq_self_eq_true, Bool.true_and, List.isSuffixOf_iff_suffix.mpr hsuf]
  · intro hmem
    simp only [List.mem_cons, List.mem_append, List.mem_singleton, List.not_mem_nil,
      or_false] at hmem
    rcases hmem with h | h | h
    · exact absurd h (by decide)
    · exact hspace h
    · exact absurd h (by decide)
  · simp

/-- C15. A token made of a quote, characters without a space, and a quote, assembled alone
from an empty buffer into an empty script, succeeds with exactly one operation: its
payload is the characters between the quotes and its opcode is the one that `push_data`
chooses for that payload, `zero` for the token of the two quotes alone and `special` for
1 to 75 characters. The payload is at most 4294967295 bytes, the range of `push_data`. -/
theorem parse_quoted_string (lib : script_library) (inner : Str)
    (hspace : ' ' ∉ inner) (hsize : inner.length ≤ 4294967295) :
    ∃ code : opcode,
      parse lib { hex_raw := [], result_script := { operations := [] } }
          (quote :: (inner ++ [quote]))
        = outcome.returned
            (true, { hex_raw := [],
                     result_script :=
                       { operations := [⟨code, inner.map (fun c => to_byte c.toNat)⟩] } }) ∧
      push_data { operations := [] } (inner.map (fun c => to_byte c.toNat))
        = outcome.returned { operations := [⟨code, inner.map (fun c => to_byte c.toNat)⟩] } ∧
      (inner = [] → code = opcode.zero) ∧
      (1 ≤ inner.length ∧ inner.length ≤ 75 → code = opcode.special) := by
  obtain ⟨hending, hnum, hhex, hquoted, hsp, hinner⟩ := quoted_token_facts inner hspace
  obtain ⟨code, hpush, hzero, hspecial⟩ :=
    push_data_returns { operations := [] } (inner.map (fun c => to_byte c.toNat))
      (by simpa using hsize)
  refine ⟨code, ?_, hpush, ?_, ?_⟩
  · rw [parse_single lib _ _ (List.cons_ne_nil _ _) hsp,
      parse_token_quoted lib _ _ hending hnum hhex hquoted, hinner, hpush]
    simp only [outcome.bind, parse_token_flush, List.isEmpty_nil, Bool.not_true,
      Bool.false_eq_true, if_false, List.nil_append]
    rw [parse_token_ending]
    rfl
  · intro h
    exact hzero (by rw [h]; rfl)
  · intro h
    have hne : inner.map (fun c => to_byte c.toNat) ≠ [] := by
      intro hc
      have := congrArg List.length hc
      simp only [List.length_map, List.length_nil] at this
      omega
    exact hspecial hne (by simp only [List.length_map]; omega)

theorem parse_quoted_string_witness :
    ' ' ∉ ['a', 'b'] ∧ (['a', 'b'] : Str).length ≤ 4294967295 ∧
    is_quoted_string (quote :: (['a', 'b'] ++ [quote])) = true ∧
    parse model_library { hex_raw := [], result_script := { operations := [] } }
        (quote :: (['a', 'b'] ++ [quote]))
      = outcome.returned
          (true, { hex_raw := [],
                   result_script := { operations := [⟨opcode.special, [0x61, 0x62]⟩] } }) :=
  ⟨by decide, by decide, by decide, by
    obtain ⟨code, hparse, _, _, hspecial⟩ :=
      parse_quoted_string model_library ['a', 'b'] (by decide) (by decide)
    rw [hparse, hspecial (by decide)]
    rfl⟩

/-! ### Spend reference: predicates, reverse round trip, checksum bits -/

theorem hash_eq_null_iff (hash : hash_digest) :
    hash = null_hash ↔ hash.val = List.replicate 32 0 := by
  rw [Subtype.ext_iff]
  rfl

/-- C16. `is_valid` is false exactly for the record with index 0 and the hash of 32 zero
bytes; `is_null` is true exactly for the index 0xFFFFFFFF with the hash of 32 zero bytes.
The default record is neither valid nor null, and the record with 32 zero bytes and the
index 0xFFFFFFFF is both, so neither predicate is the negation of the other. -/
theorem is_valid_is_null_contract :
    (∀ self : point,
      (self.is_valid = false ↔ self.index.val = 0 ∧ self.hash.val = List.replicate 32 0) ∧
      (self.is_null = true ↔
        self.index.val = 4294967295 ∧ self.hash.val = List.replicate 32 0)) ∧
    (point.mk null_hash 0).is_valid = false ∧ (point.mk null_hash 0).is_null = false ∧
    (point.mk null_hash 4294967295).is_valid = true ∧
    (point.mk null_hash 4294967295).is_null = true := by
  refine ⟨fun self => ⟨?_, ?_⟩, by decide, by decide, by decide, by decide⟩
  · simp only [point.is_valid, Bool.or_eq_false_iff, bne_eq_false_iff_eq, hash_eq_null_iff]
    constructor
    · rintro ⟨h1, h2⟩
      exact ⟨by rw [h1]; rfl, h2⟩
    · rintro ⟨h1, h2⟩
      exact ⟨Fin.ext h1, h2⟩
  · simp only [point.is_null, Bool.and_eq_true, beq_iff_eq, hash_eq_null_iff, max_uint32]
    constructor
    · rintro ⟨h1, h2⟩
      exact ⟨by rw [h1]; rfl, h2⟩
    · rintro ⟨h1, h2⟩
      exact ⟨Fin.ext h1, h2⟩

theorem to_uint32_val (value : uint32) : to_uint32 value.val = value := by
  apply Fin.ext
  simp only [to_uint32]
  omega

/-- C18. Reverse round trip: for every record, `to_data` returns a buffer that
`from_data` decodes with success, whatever the decoding record held before, into a record
equal to the first under `==`, with the same hash and the same index. -/
theorem to_data_from_data_round_trip (self r : point) :
    ∃ data : data_chunk,
      r.to_data = outcome.returned data ∧
      (self.from_data data).1 = true ∧
      point.eq (self.from_data data).2 r = true ∧
      (self.from_data data).2.hash = r.hash ∧
      (self.from_data data).2.index = r.index := by
  have hlen := r.hash.property
  simp only [hash_size] at hlen
  have h36 : 36 ≤ (r.hash.val ++ little_endian_4 r.index).length := by
    simp [little_endian_4, hlen]
  obtain ⟨hok, hhash, hindex⟩ := from_data_long self _ h36
  have htake : List.take 32 (r.hash.val ++ little_endian_4 r.index) = r.hash.val := by
    rw [List.take_append_of_le_length (by omega), List.take_of_length_le (by omega)]
  have hdrop : List.take 4 (List.drop 32 (r.hash.val ++ little_endian_4 r.index))
      = little_endian_4 r.index := by
    rw [List.drop_append_of_le_length (by omega), List.drop_of_length_le (by omega)]
    rfl
  have h1 : (self.from_data (r.hash.val ++ little_endian_4 r.index)).2.hash = r.hash :=
    Subtype.ext (hhash.trans htake)
  have h2 : (self.from_data (r.hash.val ++ little_endian_4 r.index)).2.index = r.index := by
    rw [hindex, hdrop, from_little_endian_4, to_uint32_val]
  refine ⟨_, to_data_eq r, hok, ?_, h1, h2⟩
  simp only [point.eq, Bool.and_eq_true, beq_iff_eq]
  exact ⟨h1, h2⟩

theorem checksum_spec_closed (hash : hash_digest) (index : uint32) :
    checksum_spec hash index =
      (index.val + 4294967296 * ((hash.val.getD 4 0).val + 256 * (hash.val.getD 5 0).val +
        65536 * (hash.val.getD 6 0).val + 16777216 * (hash.val.getD 7 0).val)) % 2 ^ 63 := by
  obtain ⟨l, hl⟩ := hash
  obtain ⟨a0, a1, a2, a3, a4, a5, a6, a7, rest, rfl⟩ := list_eight l hl
  have hr : List.range 8 = [0, 1, 2, 3, 4, 5, 6, 7] := by decide
  simp only [checksum_spec, hr]
  refine congrArg (fun x => x % 2 ^ 63) ?_
  simp only [List.set_cons_zero, List.set_cons_succ, List.map_cons, List.map_nil,
    List.getD_cons_zero, List.getD_cons_succ, List.sum_cons, List.sum_nil, to_byte]
  have hi := index.isLt
  omega

/-- C19. The checksum of every record is below 2^63 and its low 32 bits are the index, so
two records with different indices have different checksums, whatever their hashes. -/
theorem checksum_low_bits :
    (∀ self : point, ∃ c : Nat,
      self.checksum = outcome.returned c ∧ c < 2 ^ 63 ∧ c % 2 ^ 32 = self.index.val) ∧
    (∀ left right : point, left.index ≠ right.index → left.checksum ≠ right.checksum) := by
  have key : ∀ self : point, ∃ c : Nat,
      self.checksum = outcome.returned c ∧ c < 2 ^ 63 ∧ c % 2 ^ 32 = self.index.val := by
    intro self
    refine ⟨_, checksum_eq_spec self, ?_, ?_⟩
    · exact Nat.mod_lt _ (by norm_num)
    · rw [checksum_spec_closed]
      have hi := self.index.isLt
      omega
  refine ⟨key, fun left right hne hc => ?_⟩
  obtain ⟨c, hc1, _, hc3⟩ := key left
  obtain ⟨d, hd1, _, hd3⟩ := key right
  rw [hc1, hd1] at hc
  injection hc with hcd
  apply hne
  apply Fin.ext
  rw [← hc3, ← hd3, hcd]

theorem checksum_low_bits_witness :
    (point.mk null_hash 1).index ≠ (point.mk null_hash 2).index ∧
    (point.mk null_hash 1).checksum ≠ (point.mk null_hash 2).checksum :=
  ⟨by decide, checksum_low_bits.2 (point.mk null_hash 1) (point.mk null_hash 2) (by decide)⟩

/-- C20. Two records with the same index whose hashes agree on the bytes 4, 5 and 6 and
on the low 7 bits of the byte 7 have the same checksum; the bytes 0 to 3, the bytes 8 to
31 and the top bit of the byte 7 of the hash do not enter. -/
theorem checksum_hash_bytes (left right : point)
    (hindex : left.index = right.index)
    (h4 : left.hash.val.getD 4 0 = right.hash.val.getD 4 0)
    (h5 : left.hash.val.getD 5 0 = right.hash.val.getD 5 0)
    (h6 : left.hash.val.getD 6 0 = right.hash.val.getD 6 0)
    (h7 : (left.hash.val.getD 7 0).val % 128 = (right.hash.val.getD 7 0).val % 128) :
    left.checksum = right.checksum := by
  have key : ∀ i e f g x y : Nat, x % 128 = y % 128 →
      (i + 4294967296 * (e + 256 * f + 65536 * g + 16777216 * x)) % 2 ^ 63
        = (i + 4294967296 * (e + 256 * f + 65536 * g + 16777216 * y)) % 2 ^ 63 := by
    intro i e f g x y hxy
    omega
  rw [checksum_eq_spec, checksum_eq_spec, checksum_spec_closed, checksum_spec_closed,
    hindex, h4, h5, h6]
  exact congrArg outcome.returned (key _ _ _ _ _ _ h7)

theorem checksum_hash_bytes_witness :
    (point.mk ⟨[9, 9, 9, 9, 1, 2, 3, 132] ++ List.replicate 24 7, by decide⟩ 5).hash
      ≠ (point.mk ⟨[0, 0, 0, 0, 1, 2, 3, 4] ++ List.replicate 24 0, by decide⟩ 5).hash ∧
    (point.mk ⟨[9, 9, 9, 9, 1, 2, 3, 132] ++ List.replicate 24 7, by decide⟩ 5).checksum
      = (point.mk ⟨[0, 0, 0, 0, 1, 2, 3, 4] ++ List.replicate 24 0, by decide⟩ 5).checksum :=
  ⟨by decide,
   checksum_hash_bytes
     (point.mk ⟨[9, 9, 9, 9, 1, 2, 3, 132] ++ List.replicate 24 7, by decide⟩ 5)
     (point.mk ⟨[0, 0, 0, 0, 1, 2, 3, 4] ++ List.replicate 24 0, by decide⟩ 5)
     rfl (by decide) (by decide) (by decide) (by decide)⟩

/-! ### Tokenization -/

theorem splitOnP_space_free (l : Str) :
    ∀ t ∈ List.splitOnP (fun c => c == ' ') l, ' ' ∉ t := by
  induction l with
  | nil =>
    intro t ht
    simp only [List.splitOnP_nil, List.mem_singleton] at ht
    rw [ht]
    exact List.not_mem_nil _
  | cons x xs ih =>
    intro t ht
    rw [List.splitOnP_cons] at ht
    by_cases hx : (x == ' ') = true
    · rw [if_pos hx] at ht
      rcases List.mem_cons.mp ht with h | h
      · rw [h]
        exact List.not_mem_nil _
      · exact ih t h
    · rw [if_neg hx] at ht
      cases hs : List.splitOnP (fun c => c == ' ') xs with
      | nil => exact absurd hs (List.splitOnP_ne_nil _ _)
      | cons hd tl =>
        rw [hs] at ht ih
        simp only [List.modifyHead_cons, List.mem_cons] at ht
        rcases ht with h | h
        · rw [h]
          intro hmem
          rcases List.mem_cons.mp hmem with h1 | h1
          · exact hx (by rw [← h1]; rfl)
          · exact ih hd (List.mem_cons_self _ _) h1
        · exact ih t (List.mem_cons_of_mem _ h)

theorem splitOnP_space_length (l : Str) :
    (List.splitOnP (fun c => c == ' ') l).length = l.count ' ' + 1 := by
  induction l with
  | nil => rfl
  | cons x xs ih =>
    rw [List.splitOnP_cons]
    by_cases hx : (x == ' ') = true
    · rw [if_pos hx, List.length_cons, ih, List.count_cons]
      simp only [hx, if_true]
    · rw [if_neg hx, List.count_cons]
      simp only [hx, if_false, Bool.false_eq_true, Nat.add_zero]
      rw [← ih]
      cases List.splitOnP (fun c => c == ' ') xs with
      | nil => rfl
      | cons hd tl => rfl

/-- The function `split` cuts at every space character and nowhere else: the pieces
joined again with one space between neighbours are the input, no piece holds a space, and
there is one piece more than there are spaces. -/
theorem split_at_every_space (format : Str) :
    " ".toList.intercalate (split format) = format ∧
    (∀ t ∈ split format, ' ' ∉ t) ∧
    (split format).length = format.count ' ' + 1 :=
  ⟨List.intercalate_splitOn format ' ', splitOnP_space_free format,
   splitOnP_space_length format⟩

/-- On an input that is not empty `parse` is the loop over the pieces of `split`,
followed by the call for `ENDING` when no token was refused. -/
theorem parse_eq_loop (lib : script_library) (st : parse_state) (format : Str)
    (hne : format ≠ []) :
    parse lib st format =
      (parse_tokens lib st (split format)).bind (fun r =>
        if !r.1 then outcome.returned (false, r.2)
        else (parse_token lib r.2 "ENDING".toList).bind (fun r2 =>
          outcome.returned (true, r2.2))) := by
  have hf : format.isEmpty = false := by
    cases format with
    | nil => exact absurd rfl hne
    | cons a t => rfl
  unfold parse
  rw [hf]
  simp only [Bool.false_eq_true, if_false]
  show (parse_tokens lib st (split format)).bind _ = _
  cases hr : parse_tokens lib st (split format) with
  | returned r =>
    obtain ⟨accepted, st1⟩ := r
    cases accepted with
    | false => rfl
    | true => rfl
  | assertion_failed => rfl
  | bad_lexical_cast => rfl

/-- C17, as amended. `parse` separates tokens at space characters only. For every
non-empty list of tokens, each a non-empty run of characters other than the space, the
input made of them with one space between neighbours is classified token by token:
`parse` runs `parse_token` on exactly these tokens in this order and then makes its
final call for `ENDING`. The tokens are determined by the input, as its maximal runs of
characters other than the space; a tab or a newline is such a character and stays inside
its token. On the empty input no token is classified and `parse` returns true. -/
theorem parse_classifies_space_runs (lib : script_library) (st : parse_state)
    (tokens : List Str) (hne : tokens ≠ [])
    (hrun : ∀ t ∈ tokens, t ≠ [] ∧ ' ' ∉ t) :
    parse lib st (" ".toList.intercalate tokens) =
      (parse_tokens lib st tokens).bind (fun r =>
        if !r.1 then outcome.returned (false, r.2)
        else (parse_token lib r.2 "ENDING".toList).bind (fun r2 =>
          outcome.returned (true, r2.2))) ∧
    (∀ other : List Str, other ≠ [] → (∀ t ∈ other, ' ' ∉ t) →
      " ".toList.intercalate other = " ".toList.intercalate tokens → other = tokens) ∧
    parse lib st [] = outcome.returned (true, st) := by
  have hsp : ∀ t ∈ tokens, ' ' ∉ t := fun t ht => (hrun t ht).2
  have hsplit := split_intercalate tokens hne hsp
  refine ⟨?_, ?_, rfl⟩
  · obtain ⟨t, ht⟩ := List.exists_mem_of_ne_nil tokens hne
    have hformat := intercalate_ne_nil tokens t ht (hrun t ht).1 hsp
    rw [parse_eq_loop lib st _ hformat, hsplit]
  · intro other hother hosp heq
    have h := split_intercalate other hother hosp
    rw [heq, hsplit] at h
    exact h.symm

theorem parse_classifies_space_runs_witness :
    [['1', Char.ofNat 9, '2'], "dup".toList] ≠ [] ∧
    (∀ t ∈ [['1', Char.ofNat 9, '2'], "dup".toList], t ≠ [] ∧ ' ' ∉ t) ∧
    parse model_library { hex_raw := [], result_script := { operations := [] } }
        (" ".toList.intercalate [['1', Char.ofNat 9, '2'], "dup".toList])
      = (parse_tokens model_library { hex_raw := [], result_script := { operations := [] } }
          [['1', Char.ofNat 9, '2'], "dup".toList]).bind (fun r =>
        if !r.1 then outcome.returned (false, r.2)
        else (parse_token model_library r.2 "ENDING".toList).bind (fun r2 =>
          outcome.returned (true, r2.2))) ∧
    parse_tokens model_library { hex_raw := [], result_script := { operations := [] } }
        [['1', Char.ofNat 9, '2'], "dup".toList]
      = outcome.returned (false, { hex_raw := [], result_script := { operations := [] } }) :=
  ⟨by decide, by decide,
   (parse_classifies_space_runs model_library _ [['1', Char.ofNat 9, '2'], "dup".toList]
     (by decide) (by decide)).1,
   by decide⟩

/-- C17. A tab does not separate tokens: the input with a tab between `1` and `2` is the
one token `1<tab>2`, which `parse_token` refuses, so `parse` returns false, while `1 2`
assembles to the script of `op_1` and `op_2`. -/
theorem split_not_on_whitespace :
    parse model_library { hex_raw := [], result_script := { operations := [] } } "1 2".toList
      = outcome.returned
          (true, { hex_raw := [],
                   result_script :=
                     { operations := [⟨opcode.op_1, []⟩, ⟨opcode.op_2, []⟩] } }) ∧
    split ['1', Char.ofNat 9, '2'] = [['1', Char.ofNat 9, '2']] ∧
    parse model_library { hex_raw := [], result_script := { operations := [] } }
        ['1', Char.ofNat 9, '2']
      = outcome.returned (false, { hex_raw := [], result_script := { operations := [] } }) := by
  decide

end libbitcoin
